import Mathlib

/-!
Verification development for the OneTimePad repository (CommonCrypto shim
headers).  The repository ships only interface declarations
(`CommonCryptor.h`, `CommonCryptoError.h`, `CommonRandom.h`,
`CommonDigest.h`); the engine they describe is specified in `spec.md`.
The definitions below embed the enumerations and constants directly from
the headers, and model the cipher engine (mode drivers, PKCS#7 padding,
streaming session state machine) from the specification, since no
implementation is present under `src/`.
-/

set_option maxHeartbeats 1000000

/-- Bytes are natural numbers; byte strings are lists. -/
abbrev Bytes := List Nat

/-- Status codes from CommonCryptoError.h (`CCStatus`, a 32-bit signed enum). -/
abbrev CCCryptorStatus := Int

/-- kCCSuccess from CommonCryptoError.h. -/
def kCCSuccess : CCCryptorStatus := 0

/-- kCCParamError from CommonCryptoError.h. -/
def kCCParamError : CCCryptorStatus := -4300

/-- kCCBufferTooSmall from CommonCryptoError.h. -/
def kCCBufferTooSmall : CCCryptorStatus := -4301

/-- kCCMemoryFailure from CommonCryptoError.h. -/
def kCCMemoryFailure : CCCryptorStatus := -4302

/-- kCCAlignmentError from CommonCryptoError.h. -/
def kCCAlignmentError : CCCryptorStatus := -4303

/-- kCCDecodeError from CommonCryptoError.h. -/
def kCCDecodeError : CCCryptorStatus := -4304

/-- kCCUnimplemented from CommonCryptoError.h. -/
def kCCUnimplemented : CCCryptorStatus := -4305

/-- kCCOverflow from CommonCryptoError.h. -/
def kCCOverflow : CCCryptorStatus := -4306

/-- kCCRNGFailure from CommonCryptoError.h. -/
def kCCRNGFailure : CCCryptorStatus := -4307

/-- CCOperation from CommonCryptor.h. -/
inductive CCOperation where
  | kCCEncrypt
  | kCCDecrypt
deriving DecidableEq

/-- CCAlgorithm from CommonCryptor.h. -/
inductive CCAlgorithm where
  | kCCAlgorithmAES
  | kCCAlgorithmDES
  | kCCAlgorithmTripleDES
  | kCCAlgorithmCAST
  | kCCAlgorithmRC4
  | kCCAlgorithmRC2
  | kCCAlgorithmBlowfish
deriving DecidableEq

/-- CCMode from CommonCryptor.h.  F8 and LRW are declared but marked
unavailable (`_CC_UNIMPLEMENTED`, message "Unimplemented for now"). -/
inductive CCMode where
  | kCCModeECB
  | kCCModeCBC
  | kCCModeCFB
  | kCCModeCTR
  | kCCModeF8
  | kCCModeLRW
  | kCCModeOFB
  | kCCModeXTS
  | kCCModeRC4
  | kCCModeCFB8
deriving DecidableEq

/-- The raw enum value of each CCMode member as declared in CommonCryptor.h. -/
def CCMode.rawValue : CCMode → Nat
  | .kCCModeECB => 1
  | .kCCModeCBC => 2
  | .kCCModeCFB => 3
  | .kCCModeCTR => 4
  | .kCCModeF8 => 5
  | .kCCModeLRW => 6
  | .kCCModeOFB => 7
  | .kCCModeXTS => 8
  | .kCCModeRC4 => 9
  | .kCCModeCFB8 => 10

/-- CCPadding from CommonCryptor.h. -/
inductive CCPadding where
  | kCCPaddingNone
  | kCCPaddingPKCS7
deriving DecidableEq

/-- kCCModeOptionCTR_LE from CommonCryptor.h (CCModeOptions bit). -/
def kCCModeOptionCTR_LE : Nat := 1

/-- kCCModeOptionCTR_BE from CommonCryptor.h (CCModeOptions bit). -/
def kCCModeOptionCTR_BE : Nat := 2

/-- Block size of each algorithm, from the kCCBlockSize constants of
CommonCryptor.h (AES 16; DES, 3DES, CAST, Blowfish 8; RC4 0 as a true
stream cipher; RC2 uses the standard 8-byte block, its constant being
absent from the header). -/
def blockSize : CCAlgorithm → Nat
  | .kCCAlgorithmAES => 16
  | .kCCAlgorithmDES => 8
  | .kCCAlgorithmTripleDES => 8
  | .kCCAlgorithmCAST => 8
  | .kCCAlgorithmRC4 => 0
  | .kCCAlgorithmRC2 => 8
  | .kCCAlgorithmBlowfish => 8

/-- Valid key lengths per algorithm, from the kCCKeySize constants of
CommonCryptor.h (exact for AES/DES/3DES, a min-max range for the rest). -/
def keySizeValid : CCAlgorithm → Nat → Prop
  | .kCCAlgorithmAES, n => n = 16 ∨ n = 24 ∨ n = 32
  | .kCCAlgorithmDES, n => n = 8
  | .kCCAlgorithmTripleDES, n => n = 24
  | .kCCAlgorithmCAST, n => 5 ≤ n ∧ n ≤ 16
  | .kCCAlgorithmRC4, n => 1 ≤ n ∧ n ≤ 512
  | .kCCAlgorithmRC2, n => 1 ≤ n ∧ n ≤ 128
  | .kCCAlgorithmBlowfish, n => 8 ≤ n ∧ n ≤ 56

instance (a : CCAlgorithm) (n : Nat) : Decidable (keySizeValid a n) :=
  match a with
  | .kCCAlgorithmAES => inferInstanceAs (Decidable (n = 16 ∨ n = 24 ∨ n = 32))
  | .kCCAlgorithmDES => inferInstanceAs (Decidable (n = 8))
  | .kCCAlgorithmTripleDES => inferInstanceAs (Decidable (n = 24))
  | .kCCAlgorithmCAST => inferInstanceAs (Decidable (5 ≤ n ∧ n ≤ 16))
  | .kCCAlgorithmRC4 => inferInstanceAs (Decidable (1 ≤ n ∧ n ≤ 512))
  | .kCCAlgorithmRC2 => inferInstanceAs (Decidable (1 ≤ n ∧ n ≤ 128))
  | .kCCAlgorithmBlowfish => inferInstanceAs (Decidable (8 ≤ n ∧ n ≤ 56))

/-- Modelled from the spec: the Block Cipher Primitive collaborator of
section 6 ("schedule(key) → KeySchedule, encryptBlock, decryptBlock"),
injected after key scheduling, together with the RC4-style running
keystream ("1 byte at a time (logically), running keystream state"),
modelled as a byte stream indexed by position.  The primitives themselves
are out of scope of the repository ("specified only as an injected
capability"); everything downstream is parameterized over this record. -/
structure Primitives where
  E : Bytes → Bytes
  D : Bytes → Bytes
  ks : Nat → Nat

/-- The assumption the spec places on the injected block cipher: encrypt
and decrypt are mutually inverse length-preserving maps on blocks of the
given size. -/
def PrimInv (P : Primitives) (bs : Nat) : Prop :=
  (∀ b : Bytes, b.length = bs → (P.E b).length = bs) ∧
  (∀ b : Bytes, b.length = bs → (P.D b).length = bs) ∧
  (∀ b : Bytes, b.length = bs → P.D (P.E b) = b)

/-- Bytewise XOR of two byte strings, truncated to the shorter one. -/
def xorB (a b : Bytes) : Bytes := List.zipWith (fun x y => x ^^^ y) a b

/-- Little-endian counter increment (first byte least significant),
wrapping each byte modulo 256 with carry, for CTR mode. -/
def incLE : Bytes → Bytes
  | [] => []
  | b :: rest => if b + 1 < 256 then (b + 1) :: rest else 0 :: incLE rest

/-- Big-endian counter increment (last byte least significant), for CTR
mode; overflow wraps within the block width as the spec requires. -/
def incBE (l : Bytes) : Bytes := (incLE l.reverse).reverse

/-- Modelled from the spec: the XTS per-block tweak update, a doubling in
GF(2^128) ("sector tweak value, updated per block via a fixed polynomial
multiplication in GF(2^128)").  Little-endian byte order, standard
reduction polynomial 0x87. -/
def xtsDouble : Nat → Bytes → Bytes × Nat
  | cin, [] => ([], cin)
  | cin, b :: rest =>
    let r := xtsDouble (b / 128) rest
    (((b % 128) * 2 + cin) :: r.1, r.2)

/-- GF(2^128) multiplication of the tweak by the generator, used by the
XTS mode driver between consecutive blocks. -/
def gfMulAlpha (t : Bytes) : Bytes :=
  let r := xtsDouble 0 t
  if r.2 = 0 then r.1
  else
    match r.1 with
    | [] => []
    | b :: rest => (b ^^^ 135) :: rest

/-- Keystream bytes at positions pos, pos+1, ..., pos+n-1 of the RC4-style
running keystream. -/
def ksBytes (P : Primitives) (pos n : Nat) : Bytes :=
  (List.range n).map (fun i => P.ks (pos + i))

/-- Modelled from the spec: the per-mode mutable state of the Mode Driver
(section 4.2): none for ECB, a rolling chain value for CBC/CFB, a shift
register for CFB8, a running keystream block for OFB, a counter block with
its endianness for CTR, a tweak for XTS, and a keystream position for the
RC4-style stream. -/
inductive ModeState where
  | ecb
  | cbc (chain : Bytes)
  | cfb (chain : Bytes)
  | cfb8 (sr : Bytes)
  | ofb (k : Bytes)
  | ctr (counter : Bytes) (le : Bool)
  | xts (tweak : Bytes)
  | rc4 (pos : Nat)
deriving DecidableEq

/-- Modelled from the spec: one step of the Mode Driver (section 4.2's
table): consumes one unit of input (a block, or a single byte for CFB8 and
RC4) and produces the transformed unit plus the successor state.  CFB runs
the cipher in the encrypt direction for both operations; OFB and CTR are
pure keystream XOR, identical in both directions; CBC chains through the
previous ciphertext block; XTS whitens with the tweak on both sides and
advances it by a GF(2^128) doubling. -/
def stepMode (P : Primitives) (op : CCOperation) : ModeState → Bytes → ModeState × Bytes
  | .ecb, blk =>
    (.ecb, match op with | .kCCEncrypt => P.E blk | .kCCDecrypt => P.D blk)
  | .cbc ch, blk =>
    match op with
    | .kCCEncrypt =>
      let o := P.E (xorB blk ch)
      (.cbc o, o)
    | .kCCDecrypt => (.cbc blk, xorB (P.D blk) ch)
  | .cfb ch, blk =>
    let o := xorB blk (P.E ch)
    match op with
    | .kCCEncrypt => (.cfb o, o)
    | .kCCDecrypt => (.cfb blk, o)
  | .cfb8 sr, blk =>
    let o := xorB blk [(P.E sr).headD 0]
    match op with
    | .kCCEncrypt => (.cfb8 ((sr ++ o).drop o.length), o)
    | .kCCDecrypt => (.cfb8 ((sr ++ blk).drop blk.length), o)
  | .ofb k, blk =>
    let k2 := P.E k
    (.ofb k2, xorB blk k2)
  | .ctr cb le, blk =>
    (.ctr (if le then incLE cb else incBE cb) le, xorB blk (P.E cb))
  | .xts tw, blk =>
    let o := match op with
      | .kCCEncrypt => xorB (P.E (xorB blk tw)) tw
      | .kCCDecrypt => xorB (P.D (xorB blk tw)) tw
    (.xts (gfMulAlpha tw), o)
  | .rc4 pos, blk =>
    (.rc4 (pos + blk.length), xorB blk (ksBytes P pos blk.length))

/-- Runs the Mode Driver over a list of already-chunked input units,
collecting the output units; the blockwise reference semantics that the
byte-fed Streaming Buffer is proved to implement. -/
def runBlocks (step : ModeState → Bytes → ModeState × Bytes) :
    ModeState → List Bytes → ModeState × List Bytes
  | ms, [] => (ms, [])
  | ms, b :: bl =>
    let s := step ms b
    let r := runBlocks step s.1 bl
    (r.1, s.2 :: r.2)

/-- The mode a given Mode Driver state belongs to. -/
def msMode : ModeState → CCMode
  | .ecb => .kCCModeECB
  | .cbc _ => .kCCModeCBC
  | .cfb _ => .kCCModeCFB
  | .cfb8 _ => .kCCModeCFB8
  | .ofb _ => .kCCModeOFB
  | .ctr _ _ => .kCCModeCTR
  | .xts _ => .kCCModeXTS
  | .rc4 _ => .kCCModeRC4

/-- Well-formedness of a Mode Driver state for a given block size: every
carried IV, chain value, shift register, keystream block, counter or tweak
has block length, as the spec's data-model invariants require. -/
def msWF (bs : Nat) : ModeState → Prop
  | .ecb => True
  | .cbc ch => ch.length = bs
  | .cfb ch => ch.length = bs
  | .cfb8 sr => sr.length = bs
  | .ofb k => k.length = bs
  | .ctr cb _ => cb.length = bs
  | .xts tw => tw.length = bs
  | .rc4 _ => True

/-- Unit of processing for the Streaming Buffer: one byte for the
byte-granular modes (CFB8, RC4-stream), a full block otherwise. -/
def unitOf (mode : CCMode) (bs : Nat) : Nat :=
  match mode with
  | .kCCModeCFB8 => 1
  | .kCCModeRC4 => 1
  | _ => bs

/-- Modes that carry a rolling IV or counter of block length (all but ECB
and RC4-stream; XTS carries a tweak instead). -/
def modeUsesIV : CCMode → Bool
  | .kCCModeCBC => true
  | .kCCModeCFB => true
  | .kCCModeCFB8 => true
  | .kCCModeOFB => true
  | .kCCModeCTR => true
  | _ => false

/-- The stream-equivalent modes of the spec (CFB, CFB8, OFB, CTR,
RC4-stream): no padding ever applies and a partial final unit is legal. -/
def isStreamMode : CCMode → Bool
  | .kCCModeCFB => true
  | .kCCModeCFB8 => true
  | .kCCModeOFB => true
  | .kCCModeCTR => true
  | .kCCModeRC4 => true
  | _ => false

/-- Initial Mode Driver state derived from the creation parameters. -/
def initModeState (mode : CCMode) (le : Bool) (iv tweak : Bytes) : ModeState :=
  match mode with
  | .kCCModeECB => .ecb
  | .kCCModeCBC => .cbc iv
  | .kCCModeCFB => .cfb iv
  | .kCCModeCFB8 => .cfb8 iv
  | .kCCModeOFB => .ofb iv
  | .kCCModeCTR => .ctr iv le
  | .kCCModeXTS => .xts tweak
  | .kCCModeRC4 => .rc4 0
  | .kCCModeF8 => .ecb
  | .kCCModeLRW => .ecb

/-- Modelled from the spec: the CryptorSession entity of section 3, the
opaque state behind CCCryptorRef.  `pending` is the Streaming Buffer's
pendingBuffer, `total` the running totalBytesProcessed, `le` the CTR
counter endianness chosen at creation, and `finalized` the one-way flag
cleared only by reset. -/
structure CCCryptor where
  prim : Primitives
  op : CCOperation
  alg : CCAlgorithm
  mode : CCMode
  padding : CCPadding
  le : Bool
  ms : ModeState
  pending : Bytes
  total : Nat
  finalized : Bool

/-- The Streaming Buffer's trigger threshold: for a decrypt session with
PKCS7 padding one full block beyond the unit is withheld so that final can
validate the padding (section 4.4); otherwise a unit is processed as soon
as it is complete. -/
def thrOf (c : CCCryptor) : Nat :=
  if c.op = .kCCDecrypt ∧ c.padding = .kCCPaddingPKCS7 then blockSize c.alg + 1
  else unitOf c.mode (blockSize c.alg)

/-- The session-state invariant maintained by create, update and final:
the Mode Driver state matches the session's mode and is well-formed for
the algorithm's block size, the pendingBuffer is below the trigger
threshold, the mode is an implemented one, padding is only active for the
whole-block modes, and a block mode has a nonzero block size. -/
def cryptorWF (c : CCCryptor) : Prop :=
  msMode c.ms = c.mode ∧ msWF (blockSize c.alg) c.ms ∧ c.pending.length < thrOf c ∧
  ¬ c.mode = .kCCModeF8 ∧ ¬ c.mode = .kCCModeLRW ∧
  (c.padding = .kCCPaddingPKCS7 → c.mode = .kCCModeECB ∨ c.mode = .kCCModeCBC) ∧
  (¬ c.mode = .kCCModeRC4 → 0 < blockSize c.alg)

/-- Modelled from the spec: the Streaming Buffer's push loop (section
4.4), processed byte by byte: each arriving byte joins pendingBuffer and,
once the buffer reaches the trigger threshold, the leading unit is
extracted and handed to the Mode Driver, its output appended to the call's
result.  Returns the final mode state, the remaining pendingBuffer and the
concatenated output. -/
def feedBytes (step : ModeState → Bytes → ModeState × Bytes) (unit thr : Nat) :
    ModeState → Bytes → Bytes → ModeState × Bytes × Bytes
  | ms, pending, [] => (ms, pending, [])
  | ms, pending, b :: rest =>
    let p := pending ++ [b]
    if thr ≤ p.length then
      let s := step ms (p.take unit)
      let r := feedBytes step unit thr s.1 (p.drop unit) rest
      (r.1, r.2.1, s.2 ++ r.2.2)
    else
      feedBytes step unit thr ms p rest

/-- The length of an optional byte string, zero when absent. -/
def optLen : Option Bytes → Nat
  | none => 0
  | some v => v.length

/-- Modelled from the spec: CCCryptorCreateWithMode (declared in
CommonCryptor.h; behaviour from section 4.1's create).  Validates, in
order: availability of the mode (F8 and LRW are declared unavailable,
"Unimplemented for now"), key length against the algorithm, compatibility
of algorithm and mode (the RC4-stream mode requires the RC4 algorithm; a
zero-block-size algorithm cannot drive a block mode), padding against mode
(PKCS7 with a stream-equivalent mode is a configuration error), IV
presence and length for the modes that need one, and tweak length for XTS.
numRounds is silently ignored as the spec permits.  The key schedule is
represented by the injected primitives. -/
def CCCryptorCreateWithMode (P : Primitives) (op : CCOperation) (mode : CCMode)
    (alg : CCAlgorithm) (padding : CCPadding) (iv : Option Bytes) (key : Bytes)
    (tweak : Option Bytes) (numRounds : Nat) (options : Nat) :
    Except CCCryptorStatus CCCryptor :=
  if mode = .kCCModeF8 ∨ mode = .kCCModeLRW then .error kCCUnimplemented
  else if ¬ keySizeValid alg key.length then .error kCCParamError
  else if mode = .kCCModeRC4 ∧ ¬ alg = .kCCAlgorithmRC4 then .error kCCParamError
  else if ¬ mode = .kCCModeRC4 ∧ blockSize alg = 0 then .error kCCParamError
  else if padding = .kCCPaddingPKCS7 ∧ isStreamMode mode = true then .error kCCParamError
  else if padding = .kCCPaddingPKCS7 ∧ mode = .kCCModeXTS then .error kCCParamError
  else if modeUsesIV mode = true ∧ ¬ optLen iv = blockSize alg then .error kCCParamError
  else if mode = .kCCModeXTS ∧ ¬ optLen tweak = blockSize alg then .error kCCParamError
  else
    .ok
      { prim := P, op := op, alg := alg, mode := mode, padding := padding
        le := options % 2 = 1
        ms := initModeState mode (decide (options % 2 = 1)) (iv.getD []) (tweak.getD [])
        pending := [], total := 0, finalized := false }

/-- Modelled from the spec: CCCryptorUpdate (declared in CommonCryptor.h;
behaviour from section 4.1's update).  Fails once the session is
finalized; otherwise feeds the input through the Streaming Buffer, never
partially consuming it, and returns the produced bytes. -/
def CCCryptorUpdate (c : CCCryptor) (dataIn : Bytes) :
    Except CCCryptorStatus (CCCryptor × Bytes) :=
  if c.finalized then .error kCCParamError
  else
    let r := feedBytes (stepMode c.prim c.op) (unitOf c.mode (blockSize c.alg)) (thrOf c)
      c.ms c.pending dataIn
    .ok ({ c with ms := r.1, pending := r.2.1, total := c.total + dataIn.length }, r.2.2)

/-- Modelled from the spec: the PKCS7 pad half of the Padding Policy
(section 4.3): fill the last partial block up to the block size with
copies of the fill count. -/
def pkcs7pad (bs : Nat) (rem : Bytes) : Bytes :=
  rem ++ List.replicate (bs - rem.length) (bs - rem.length)

/-- Marks a session finalized with a cleared pending buffer and the given
mode state. -/
def finishWith (c : CCCryptor) (ms : ModeState) : CCCryptor :=
  { c with ms := ms, pending := [], finalized := true }

/-- Modelled from the spec: CCCryptorFinal (declared in CommonCryptor.h;
behaviour from section 4.1's final).  For whole-block modes (ECB, CBC)
with PKCS7: on encrypt the pending tail is padded to a full block and
transformed; on decrypt the withheld block must be exactly one block, is
decrypted, its uniform trailing fill validated (fill byte 0 or above the
block size, or any differing fill byte, is a DecodeError), then stripped.
Without padding a whole-block mode (and XTS) requires an empty
pendingBuffer (else ParamError); stream-equivalent modes drain the partial
tail against a truncated keystream.  On success the session transitions to
finalized. -/
def CCCryptorFinal (c : CCCryptor) : Except CCCryptorStatus (CCCryptor × Bytes) :=
  if c.finalized then .error kCCParamError
  else
    let bs := blockSize c.alg
    match c.mode with
    | .kCCModeECB | .kCCModeCBC =>
      match c.padding with
      | .kCCPaddingNone =>
        if c.pending = [] then .ok (finishWith c c.ms, []) else .error kCCParamError
      | .kCCPaddingPKCS7 =>
        match c.op with
        | .kCCEncrypt =>
          let s := stepMode c.prim c.op c.ms (pkcs7pad bs c.pending)
          .ok (finishWith c s.1, s.2)
        | .kCCDecrypt =>
          if c.pending.length = bs then
            let s := stepMode c.prim c.op c.ms c.pending
            let m := s.2
            let k := m.getLastD 0
            if k = 0 ∨ bs < k then .error kCCDecodeError
            else if (m.drop (bs - k)).all (fun x => x == k) then
              .ok (finishWith c s.1, m.take (bs - k))
            else .error kCCDecodeError
          else .error kCCParamError
    | .kCCModeXTS =>
      if c.pending = [] then .ok (finishWith c c.ms, []) else .error kCCParamError
    | .kCCModeCFB | .kCCModeOFB | .kCCModeCTR | .kCCModeCFB8 | .kCCModeRC4 =>
      let s := stepMode c.prim c.op c.ms c.pending
      .ok (finishWith c s.1, s.2)
    | .kCCModeF8 | .kCCModeLRW => .error kCCUnimplemented

/-- Modelled from the spec: CCCryptorReset (declared in CommonCryptor.h;
behaviour from section 4.1's reset): clears pendingBuffer,
totalBytesProcessed and the finalized flag, reinitializes the
IV/counter/tweak from the supplied value (required, with block length, for
the modes that carry one), and retains the key schedule. -/
def CCCryptorReset (c : CCCryptor) (iv : Option Bytes) :
    Except CCCryptorStatus CCCryptor :=
  let bs := blockSize c.alg
  let fresh := fun ms =>
    { c with ms := ms, pending := ([] : Bytes), total := 0, finalized := false }
  match c.mode with
  | .kCCModeECB => .ok (fresh .ecb)
  | .kCCModeRC4 => .ok (fresh (.rc4 0))
  | .kCCModeF8 | .kCCModeLRW => .error kCCUnimplemented
  | _ =>
    if optLen iv = bs then
      .ok (fresh (initModeState c.mode c.le (iv.getD []) (iv.getD [])))
    else .error kCCParamError

/-- Modelled from the spec: CCCryptorGetOutputLength (declared in
CommonCryptor.h; behaviour from section 4.1's getOutputLength): a pure
upper bound from the pendingBuffer size, the additional input length, mode
and padding; for a padded encrypt final it accounts for the possible extra
padding block. -/
def CCCryptorGetOutputLength (c : CCCryptor) (inputLength : Nat) (fin : Bool) : Nat :=
  let bs := blockSize c.alg
  let u := unitOf c.mode bs
  let t := c.pending.length + inputLength
  if fin then
    if c.padding = .kCCPaddingPKCS7 ∧ c.op = .kCCEncrypt then (t / bs + 1) * bs else t
  else if u = 1 then t else t / u * u

/-- Runs a whole session over one input: a single update with the full
input followed by final, concatenating the outputs (the shape used by the
spec's round-trip property). -/
def runSession (c : CCCryptor) (input : Bytes) : Except CCCryptorStatus Bytes := do
  let r1 ← CCCryptorUpdate c input
  let r2 ← CCCryptorFinal r1.1
  pure (r1.2 ++ r2.2)

/-- Feeds a list of chunks through consecutive update calls, concatenating
the outputs. -/
def updatesAll : CCCryptor → List Bytes → Except CCCryptorStatus (CCCryptor × Bytes)
  | c, [] => .ok (c, [])
  | c, part :: rest =>
    match CCCryptorUpdate c part with
    | .error e => .error e
    | .ok r1 =>
      match updatesAll r1.1 rest with
      | .error e => .error e
      | .ok r2 => .ok (r2.1, r1.2 ++ r2.2)

/-- The digest algorithms of CommonDigest.h. -/
inductive CCDigestAlg where
  | md2
  | md4
  | md5
  | sha1
  | sha224
  | sha256
  | sha384
  | sha512
deriving DecidableEq

/-- Digest lengths in bytes, from the CC_*_DIGEST_LENGTH constants of
CommonDigest.h. -/
def CCDigestLength : CCDigestAlg → Nat
  | .md2 => 16
  | .md4 => 16
  | .md5 => 16
  | .sha1 => 20
  | .sha224 => 28
  | .sha256 => 32
  | .sha384 => 48
  | .sha512 => 64

/-- Modelled from the spec: the digest collaborator of section 6 — the
algorithms themselves (MD2/MD4/MD5/SHA-1/SHA-2 family) are external and
not designed here, so each is an abstract map from input to digest
bytes. -/
structure DigestOracle where
  digest : CCDigestAlg → Bytes → Bytes

/-- Modelled from the spec: the legacy CC_*_Init routines of
CommonDigest.h.  The context is the accumulated input; per the header
comment these functions always return 1. -/
def CC_Digest_Init (O : DigestOracle) (alg : CCDigestAlg) (c : Bytes) : Bytes × Int :=
  ([], 1)

/-- Modelled from the spec: the legacy CC_*_Update routines of
CommonDigest.h; always return 1. -/
def CC_Digest_Update (O : DigestOracle) (alg : CCDigestAlg) (c : Bytes) (data : Bytes) :
    Bytes × Int :=
  (c ++ data, 1)

/-- Modelled from the spec: the legacy CC_*_Final routines of
CommonDigest.h: write the digest of the accumulated input and, per the
header comment, always return 1. -/
def CC_Digest_Final (O : DigestOracle) (alg : CCDigestAlg) (c : Bytes) : Bytes × Int :=
  (O.digest alg c, 1)

/-- Modelled from the spec: the one-shot digest functions (CC_MD2,
CC_SHA1, ...) of CommonDigest.h: given NULL for md they perform no digest
calculation and return NULL; otherwise they write the digest into md and
return md. -/
def CC_Digest_OneShot (O : DigestOracle) (alg : CCDigestAlg) (data : Bytes)
    (md : Option Bytes) : Option Bytes :=
  match md with
  | none => none
  | some _ => some (O.digest alg data)

/-- A freshly created session record: the state CCCryptorCreateWithMode
produces for the given configuration, with an empty pendingBuffer, a zero
byte count and the finalized flag clear. -/
def mkSession (P : Primitives) (op : CCOperation) (alg : CCAlgorithm) (mode : CCMode)
    (padding : CCPadding) (le : Bool) (ms : ModeState) : CCCryptor :=
  { prim := P, op := op, alg := alg, mode := mode, padding := padding, le := le
    ms := ms, pending := [], total := 0, finalized := false }

/-- The identity block cipher, a concrete primitive satisfying the
injected-cipher contract at every block size; used to instantiate the
general theorems at concrete inputs. -/
def Pid : Primitives :=
  { E := fun b => b, D := fun b => b, ks := fun _ => 0 }

/-- A concrete 8-byte IV of zeros for DES-block-size examples. -/
def ivW : Bytes := List.replicate 8 0

/-- A concrete valid 8-byte DES key. -/
def keyW : Bytes := List.replicate 8 7

/-- The concrete session produced by a successful
CCCryptorCreateWithMode for encrypt/DES/CBC/PKCS7 with the identity
primitive, zero IV and keyW. -/
def ceW : CCCryptor :=
  { prim := Pid, op := .kCCEncrypt, alg := .kCCAlgorithmDES, mode := .kCCModeCBC
    padding := .kCCPaddingPKCS7, le := false, ms := .cbc ivW
    pending := [], total := 0, finalized := false }

/-- The matching concrete decrypt session for ceW. -/
def cdW : CCCryptor :=
  { ceW with op := .kCCDecrypt }

/-- The concrete session ceW after a successful final on empty input: one
full padding block [8,...,8] was encrypted (identity cipher, zero IV). -/
def ceWfin : CCCryptor :=
  { ceW with ms := .cbc (List.replicate 8 8), finalized := true }

/-- A concrete decrypt/CBC/PKCS7 session holding a withheld block whose
decrypted trailing fill byte is 0 (an invalid PKCS7 fill). -/
def cdBad : CCCryptor :=
  { prim := Pid, op := .kCCDecrypt, alg := .kCCAlgorithmDES, mode := .kCCModeCBC
    padding := .kCCPaddingPKCS7, le := false, ms := .cbc ivW
    pending := List.replicate 8 0, total := 8, finalized := false }

/-- A concrete encrypt/DES/ECB session with no padding, for the
misaligned-final example. -/
def ceECB : CCCryptor :=
  { prim := Pid, op := .kCCEncrypt, alg := .kCCAlgorithmDES, mode := .kCCModeECB
    padding := .kCCPaddingNone, le := false, ms := .ecb
    pending := [], total := 0, finalized := false }

/-- A concrete encrypt/DES/CTR session with no padding (big-endian
counter), for the stream-mode final example. -/
def ceCTR : CCCryptor :=
  { prim := Pid, op := .kCCEncrypt, alg := .kCCAlgorithmDES, mode := .kCCModeCTR
    padding := .kCCPaddingNone, le := false, ms := .ctr ivW false
    pending := [], total := 0, finalized := false }

/-- The concrete session produced by create for encrypt/DES/CBC with no
padding, zero IV: the session C2's padded ciphertext is compared
against. -/
def ceWnp : CCCryptor :=
  { ceW with padding := .kCCPaddingNone }

/-! Basic facts about bytewise XOR and the auxiliary state-update
functions of the mode drivers. -/

theorem xorB_length (a b : Bytes) : (xorB a b).length = min a.length b.length :=
  List.length_zipWith _ a b

theorem xorB_length_left (a b : Bytes) (h : a.length ≤ b.length) :
    (xorB a b).length = a.length := by
  rw [xorB_length]; omega

theorem xorB_cancel (a b : Bytes) (h : a.length ≤ b.length) :
    xorB (xorB a b) b = a := by
  induction a generalizing b with
  | nil => rfl
  | cons x a ih =>
    cases b with
    | nil => simp at h
    | cons y b =>
      simp only [List.length_cons, Nat.add_le_add_iff_right] at h
      show ((x ^^^ y) ^^^ y) :: xorB (xorB a b) b = x :: a
      rw [Nat.xor_cancel_right, ih b h]

theorem incLE_length (l : Bytes) : (incLE l).length = l.length := by
  induction l with
  | nil => rfl
  | cons b rest ih =>
    by_cases hb : b + 1 < 256
    · simp [incLE, hb]
    · simp [incLE, hb, ih]

theorem incBE_length (l : Bytes) : (incBE l).length = l.length := by
  simp [incBE, incLE_length]

theorem xtsDouble_length (cin : Nat) (l : Bytes) :
    (xtsDouble cin l).1.length = l.length := by
  induction l generalizing cin with
  | nil => rfl
  | cons b rest ih => simp [xtsDouble, ih]

theorem gfMulAlpha_length (t : Bytes) : (gfMulAlpha t).length = t.length := by
  have hl := xtsDouble_length 0 t
  unfold gfMulAlpha
  by_cases h : (xtsDouble 0 t).2 = 0
  · simp [h, hl]
  · rw [if_neg h]
    rcases hr : (xtsDouble 0 t).1 with _ | ⟨b, rest⟩
    · rw [hr] at hl
      simpa using hl
    · rw [hr] at hl
      simpa using hl

theorem ksBytes_length (P : Primitives) (pos n : Nat) :
    (ksBytes P pos n).length = n := by
  simp [ksBytes]

/-! Facts about a single Mode Driver step: it stays within its mode,
preserves well-formedness, preserves the unit length of its payload, and
decrypting an encrypted unit from the same state recovers the unit and
resynchronizes the state. -/

theorem stepMode_msMode (P : Primitives) (op : CCOperation) (ms : ModeState) (blk : Bytes) :
    msMode (stepMode P op ms blk).1 = msMode ms := by
  cases ms <;> cases op <;> simp [stepMode, msMode]

theorem stepMode_len (P : Primitives) (op : CCOperation) (bs : Nat) (ms : ModeState)
    (blk : Bytes) (hP : PrimInv P bs) (hwf : msWF bs ms)
    (hblk : blk.length = unitOf (msMode ms) bs) :
    (stepMode P op ms blk).2.length = blk.length ∧
      msWF bs (stepMode P op ms blk).1 := by
  obtain ⟨hE, hD, hI⟩ := hP
  cases ms with
  | ecb =>
    simp only [unitOf, msMode] at hblk
    cases op <;> simp [stepMode, msWF, hE _ hblk, hD _ hblk, hblk]
  | cbc ch =>
    simp only [unitOf, msMode] at hblk
    simp only [msWF] at hwf
    cases op with
    | kCCEncrypt =>
      have h1 : (xorB blk ch).length = bs := by rw [xorB_length, hblk, hwf]; omega
      simp [stepMode, msWF, hE _ h1, hblk]
    | kCCDecrypt =>
      have h1 : (P.D blk).length = bs := hD _ hblk
      simp [stepMode, msWF, xorB_length, h1, hwf, hblk]
  | cfb ch =>
    simp only [unitOf, msMode] at hblk
    simp only [msWF] at hwf
    have h1 : (P.E ch).length = bs := hE _ hwf
    cases op <;> simp [stepMode, msWF, xorB_length, h1, hblk, hwf]
  | cfb8 sr =>
    simp only [unitOf, msMode] at hblk
    simp only [msWF] at hwf
    have h1 : ∀ z : Nat, (xorB blk [z]).length = 1 := by
      intro z; rw [xorB_length, hblk]; simp
    cases op <;> simp [stepMode, msWF, h1, hblk, hwf]
  | ofb k =>
    simp only [unitOf, msMode] at hblk
    simp only [msWF] at hwf
    have h1 : (P.E k).length = bs := hE _ hwf
    cases op <;> simp [stepMode, msWF, xorB_length, h1, hblk, hwf]
  | ctr cb le =>
    simp only [unitOf, msMode] at hblk
    simp only [msWF] at hwf
    have h1 : (P.E cb).length = bs := hE _ hwf
    cases le <;> cases op <;>
      simp [stepMode, msWF, xorB_length, h1, hblk, hwf, incLE_length, incBE_length]
  | xts tw =>
    simp only [unitOf, msMode] at hblk
    simp only [msWF] at hwf
    have h1 : (xorB blk tw).length = bs := by rw [xorB_length, hblk, hwf]; omega
    have hG : (gfMulAlpha tw).length = bs := by rw [gfMulAlpha_length, hwf]
    cases op <;>
      simp [stepMode, msWF, xorB_length, hE _ h1, hD _ h1, hblk, hwf, hG]
  | rc4 pos =>
    cases op <;> simp [stepMode, msWF, xorB_length, ksBytes_length]

theorem stepMode_inv (P : Primitives) (bs : Nat) (ms : ModeState) (b : Bytes)
    (hP : PrimInv P bs) (hwf : msWF bs ms)
    (hb : b.length = unitOf (msMode ms) bs) :
    stepMode P .kCCDecrypt ms (stepMode P .kCCEncrypt ms b).2 =
      ((stepMode P .kCCEncrypt ms b).1, b) := by
  obtain ⟨hE, hD, hI⟩ := hP
  cases ms with
  | ecb =>
    simp only [unitOf, msMode] at hb
    simp [stepMode, hI _ hb]
  | cbc ch =>
    simp only [unitOf, msMode] at hb
    simp only [msWF] at hwf
    have h1 : (xorB b ch).length = bs := by rw [xorB_length, hb, hwf]; omega
    simp [stepMode, hI _ h1, xorB_cancel b ch (by omega)]
  | cfb ch =>
    simp only [unitOf, msMode] at hb
    simp only [msWF] at hwf
    have h1 : (P.E ch).length = bs := hE _ hwf
    simp [stepMode, xorB_cancel b (P.E ch) (by omega)]
  | cfb8 sr =>
    simp only [unitOf, msMode] at hb
    simp only [msWF] at hwf
    have h1 : ∀ z : Nat, (xorB b [z]).length = 1 := by
      intro z; rw [xorB_length, hb]; simp
    have h2 : ∀ z : Nat, xorB (xorB b [z]) [z] = b := by
      intro z; exact xorB_cancel b [z] (by simp [hb])
    simp [stepMode, h1, h2, hb]
  | ofb k =>
    simp only [unitOf, msMode] at hb
    simp only [msWF] at hwf
    have h1 : (P.E k).length = bs := hE _ hwf
    simp [stepMode, xorB_cancel b (P.E k) (by omega)]
  | ctr cb le =>
    simp only [unitOf, msMode] at hb
    simp only [msWF] at hwf
    have h1 : (P.E cb).length = bs := hE _ hwf
    simp [stepMode, xorB_cancel b (P.E cb) (by omega)]
  | xts tw =>
    simp only [unitOf, msMode] at hb
    simp only [msWF] at hwf
    have h1 : (xorB b tw).length = bs := by rw [xorB_length, hb, hwf]; omega
    have h2 : (P.E (xorB b tw)).length = bs := hE _ h1
    simp [stepMode, xorB_cancel (P.E (xorB b tw)) tw (by omega), hI _ h1,
      xorB_cancel b tw (by omega)]
  | rc4 pos =>
    have h1 : (xorB b (ksBytes P pos b.length)).length = b.length := by
      rw [xorB_length, ksBytes_length]; omega
    simp [stepMode, h1, xorB_cancel b (ksBytes P pos b.length)
      (by rw [ksBytes_length])]

/-! Facts about the blockwise reference semantics runBlocks: composition,
preservation of the invariants, and the encrypt/decrypt inversion that
also resynchronizes the Mode Driver state. -/

theorem runBlocks_append (step : ModeState → Bytes → ModeState × Bytes) (ms : ModeState)
    (a b : List Bytes) :
    runBlocks step ms (a ++ b) =
      ((runBlocks step (runBlocks step ms a).1 b).1,
        (runBlocks step ms a).2 ++ (runBlocks step (runBlocks step ms a).1 b).2) := by
  induction a generalizing ms with
  | nil => simp [runBlocks]
  | cons x a ih => simp [runBlocks, ih]

theorem runBlocks_wf (P : Primitives) (op : CCOperation) (bs : Nat) (hP : PrimInv P bs)
    (bl : List Bytes) :
    ∀ ms : ModeState, msWF bs ms → (∀ b ∈ bl, b.length = unitOf (msMode ms) bs) →
      msWF bs (runBlocks (stepMode P op) ms bl).1 ∧
      msMode (runBlocks (stepMode P op) ms bl).1 = msMode ms ∧
      (∀ o ∈ (runBlocks (stepMode P op) ms bl).2, o.length = unitOf (msMode ms) bs) ∧
      (runBlocks (stepMode P op) ms bl).2.length = bl.length := by
  induction bl with
  | nil => intro ms hwf _; simp [runBlocks, hwf]
  | cons b bl ih =>
    intro ms hwf hbl
    have hb : b.length = unitOf (msMode ms) bs := hbl b (by simp)
    have hs := stepMode_len P op bs ms b hP hwf hb
    have hmm := stepMode_msMode P op ms b
    have ihr := ih (stepMode P op ms b).1 hs.2 (by
      intro x hx
      rw [hmm]
      exact hbl x (by simp [hx]))
    refine ⟨?_, ?_, ?_, ?_⟩
    · simpa [runBlocks] using ihr.1
    · simp only [runBlocks]
      rw [ihr.2.1, hmm]
    · intro o ho
      simp only [runBlocks, List.mem_cons] at ho
      rcases ho with ho | ho
      · rw [ho, hs.1, hb]
      · rw [← hmm]
        exact ihr.2.2.1 o ho
    · simp [runBlocks, ihr.2.2.2]

theorem runBlocks_inv (P : Primitives) (bs : Nat) (hP : PrimInv P bs) (bl : List Bytes) :
    ∀ ms : ModeState, msWF bs ms → (∀ b ∈ bl, b.length = unitOf (msMode ms) bs) →
      runBlocks (stepMode P .kCCDecrypt) ms (runBlocks (stepMode P .kCCEncrypt) ms bl).2 =
        ((runBlocks (stepMode P .kCCEncrypt) ms bl).1, bl) := by
  induction bl with
  | nil => intro ms _ _; simp [runBlocks]
  | cons b bl ih =>
    intro ms hwf hbl
    have hb : b.length = unitOf (msMode ms) bs := hbl b (by simp)
    have hinv := stepMode_inv P bs ms b hP hwf hb
    have hs := stepMode_len P .kCCEncrypt bs ms b hP hwf hb
    have hmm := stepMode_msMode P .kCCEncrypt ms b
    have ihr := ih (stepMode P .kCCEncrypt ms b).1 hs.2 (by
      intro x hx
      rw [hmm]
      exact hbl x (by simp [hx]))
    simp only [runBlocks]
    rw [hinv]
    simp only [runBlocks] at ihr ⊢
    rw [ihr]

/-! Characterizations of the byte-fed Streaming Buffer in terms of the
blockwise semantics: composition over input concatenation, behaviour below
the trigger threshold, exact-threshold behaviour, the one-block-withheld
regime used by decrypt-with-padding, and the greedy whole-block regime. -/

theorem feedBytes_nil (step : ModeState → Bytes → ModeState × Bytes) (u thr : Nat)
    (ms : ModeState) (pending : Bytes) :
    feedBytes step u thr ms pending [] = (ms, pending, []) := rfl

theorem feedBytes_cons (step : ModeState → Bytes → ModeState × Bytes) (u thr : Nat)
    (ms : ModeState) (pending : Bytes) (b : Nat) (rest : Bytes) :
    feedBytes step u thr ms pending (b :: rest) =
      if thr ≤ (pending ++ [b]).length then
        ((feedBytes step u thr (step ms ((pending ++ [b]).take u)).1
            ((pending ++ [b]).drop u) rest).1,
          (feedBytes step u thr (step ms ((pending ++ [b]).take u)).1
            ((pending ++ [b]).drop u) rest).2.1,
          (step ms ((pending ++ [b]).take u)).2 ++
            (feedBytes step u thr (step ms ((pending ++ [b]).take u)).1
              ((pending ++ [b]).drop u) rest).2.2)
      else feedBytes step u thr ms (pending ++ [b]) rest := rfl

theorem feedBytes_append (step : ModeState → Bytes → ModeState × Bytes) (u thr : Nat)
    (a : Bytes) :
    ∀ (b : Bytes) (ms : ModeState) (pending : Bytes),
      feedBytes step u thr ms pending (a ++ b) =
        ((feedBytes step u thr (feedBytes step u thr ms pending a).1
            (feedBytes step u thr ms pending a).2.1 b).1,
          (feedBytes step u thr (feedBytes step u thr ms pending a).1
            (feedBytes step u thr ms pending a).2.1 b).2.1,
          (feedBytes step u thr ms pending a).2.2 ++
            (feedBytes step u thr (feedBytes step u thr ms pending a).1
              (feedBytes step u thr ms pending a).2.1 b).2.2) := by
  induction a with
  | nil => intro b ms pending; simp [feedBytes]
  | cons x a ih =>
    intro b ms pending
    by_cases h : thr ≤ (pending ++ [x]).length
    · simp only [List.cons_append, feedBytes_cons, if_pos h]
      rw [ih]
      simp [List.append_assoc]
    · simp only [List.cons_append, feedBytes_cons, if_neg h]
      rw [ih]

theorem feedBytes_small (step : ModeState → Bytes → ModeState × Bytes) (u thr : Nat)
    (input : Bytes) :
    ∀ (ms : ModeState) (pending : Bytes), (pending ++ input).length < thr →
      feedBytes step u thr ms pending input = (ms, pending ++ input, []) := by
  induction input with
  | nil => intro ms pending _; simp [feedBytes]
  | cons x rest ih =>
    intro ms pending h
    simp only [List.length_append, List.length_cons] at h
    have hc : ¬ thr ≤ (pending ++ [x]).length := by
      simp only [List.length_append, List.length_cons, List.length_nil]
      omega
    simp only [feedBytes_cons, if_neg hc]
    rw [ih ms (pending ++ [x]) (by simp; omega)]
    simp

theorem feedBytes_exact (step : ModeState → Bytes → ModeState × Bytes) (u thr : Nat)
    (hu : 0 < u) (hut : u ≤ thr) (input : Bytes) :
    ∀ (ms : ModeState) (pending : Bytes),
      pending.length + input.length = thr → input ≠ [] →
      feedBytes step u thr ms pending input =
        ((step ms ((pending ++ input).take u)).1, (pending ++ input).drop u,
          (step ms ((pending ++ input).take u)).2) := by
  induction input with
  | nil => intro ms pending _ hne; exact absurd rfl hne
  | cons x rest ih =>
    intro ms pending hlen _
    cases rest with
    | nil =>
      have hc : thr ≤ (pending ++ [x]).length := by simp at hlen ⊢; omega
      simp only [feedBytes_cons, if_pos hc, feedBytes_nil]
      simp
    | cons y rest2 =>
      have hc : ¬ thr ≤ (pending ++ [x]).length := by
        simp only [List.length_cons] at hlen
        simp only [List.length_append, List.length_cons, List.length_nil]
        omega
      rw [feedBytes_cons, if_neg hc]
      rw [ih ms (pending ++ [x]) (by simp at hlen ⊢; omega) (by simp)]
      simp

theorem feedBytes_withhold_block (step : ModeState → Bytes → ModeState × Bytes) (u : Nat)
    (hu : 0 < u) (input : Bytes) (ms : ModeState) (pending : Bytes)
    (hp : pending.length = u) (hi : input.length = u) :
    feedBytes step u (u + 1) ms pending input =
      ((step ms pending).1, input, (step ms pending).2) := by
  cases input with
  | nil => simp at hi; omega
  | cons x rest =>
    have hc : u + 1 ≤ (pending ++ [x]).length := by simp [hp]
    simp only [feedBytes_cons, if_pos hc]
    have ht : (pending ++ x :: rest).take u = pending := by
      rw [← hp]
      exact List.take_left pending _
    have ht1 : (pending ++ [x]).take u = pending := by
      rw [← hp]
      exact List.take_left pending _
    have hd1 : (pending ++ [x]).drop u = [x] := by
      rw [← hp]
      exact List.drop_left pending _
    rw [ht1, hd1]
    rw [feedBytes_small step u (u + 1) rest (step ms pending).1 [x] (by
      simp only [List.length_cons] at hi
      simp only [List.length_append, List.length_cons, List.length_nil]
      omega)]
    simp

theorem feedBytes_greedy (step : ModeState → Bytes → ModeState × Bytes) (u : Nat)
    (hu : 0 < u) (bl : List Bytes) :
    ∀ (rem : Bytes) (ms : ModeState), (∀ b ∈ bl, b.length = u) → rem.length < u →
      feedBytes step u u ms [] (bl.flatten ++ rem) =
        ((runBlocks step ms bl).1, rem, (runBlocks step ms bl).2.flatten) := by
  induction bl with
  | nil =>
    intro rem ms _ hr
    simpa [runBlocks] using feedBytes_small step u u rem ms [] (by simpa using hr)
  | cons b bl ih =>
    intro rem ms hbl hr
    have hb : b.length = u := hbl b (by simp)
    have hbne : b ≠ [] := by
      intro h0
      rw [h0] at hb
      simp at hb
      omega
    rw [List.flatten_cons, List.append_assoc, feedBytes_append]
    rw [feedBytes_exact step u u hu le_rfl b ms [] (by simpa using hb) hbne]
    simp only [List.nil_append]
    have htk : b.take u = b := by rw [← hb]; exact List.take_length ..
    have hdr : b.drop u = [] := by rw [← hb]; exact List.drop_length ..
    rw [htk, hdr]
    rw [ih rem (step ms b).1 (fun x hx => hbl x (by simp [hx])) hr]
    simp [runBlocks]

theorem feedBytes_withhold (step : ModeState → Bytes → ModeState × Bytes) (u : Nat)
    (hu : 0 < u) (bl : List Bytes) :
    ∀ (lastb : Bytes) (ms : ModeState) (pending : Bytes),
      pending.length = u → (∀ b ∈ bl, b.length = u) → lastb.length = u →
      feedBytes step u (u + 1) ms pending ((bl ++ [lastb]).flatten) =
        ((runBlocks step ms (pending :: bl)).1, lastb,
          (runBlocks step ms (pending :: bl)).2.flatten) := by
  induction bl with
  | nil =>
    intro lastb ms pending hp _ hl
    simp only [List.nil_append, List.flatten_cons, List.flatten_nil, List.append_nil]
    rw [feedBytes_withhold_block step u hu lastb ms pending hp hl]
    simp [runBlocks]
  | cons b bl ih =>
    intro lastb ms pending hp hbl hl
    have hb : b.length = u := hbl b (by simp)
    rw [List.cons_append, List.flatten_cons, feedBytes_append]
    rw [feedBytes_withhold_block step u hu b ms pending hp hb]
    rw [ih lastb (step ms pending).1 b hb (fun x hx => hbl x (by simp [hx])) hl]
    simp [runBlocks]

theorem feedBytes_withhold_top (step : ModeState → Bytes → ModeState × Bytes) (u : Nat)
    (hu : 0 < u) (bl : List Bytes) (lastb : Bytes) (ms : ModeState)
    (hbl : ∀ b ∈ bl, b.length = u) (hl : lastb.length = u) :
    feedBytes step u (u + 1) ms [] ((bl ++ [lastb]).flatten) =
      ((runBlocks step ms bl).1, lastb, (runBlocks step ms bl).2.flatten) := by
  cases bl with
  | nil =>
    simp only [List.nil_append, List.flatten_cons, List.flatten_nil, List.append_nil]
    rw [feedBytes_small step u (u + 1) lastb ms [] (by simp [hl])]
    simp [runBlocks]
  | cons b bl =>
    have hb : b.length = u := hbl b (by simp)
    rw [List.cons_append, List.flatten_cons, feedBytes_append]
    rw [feedBytes_small step u (u + 1) b ms [] (by simp [hb])]
    simp only [List.nil_append]
    rw [feedBytes_withhold step u hu bl lastb ms b hb
      (fun x hx => hbl x (by simp [hx])) hl]

/-! Conservation through the Streaming Buffer: under a step function that
preserves an invariant and yields unit-length output, feeding bytes keeps
the invariant, keeps the pendingBuffer below the threshold, emits a
whole number of units, and transforms without loss: output length plus
retained length equals input length plus previously retained length. -/

theorem feedBytes_spec (step : ModeState → Bytes → ModeState × Bytes) (u thr : Nat)
    (Q : ModeState → Prop) (hu : 0 < u) (hut : u ≤ thr)
    (hstep : ∀ ms blk, Q ms → blk.length = u →
      (step ms blk).2.length = u ∧ Q (step ms blk).1)
    (input : Bytes) :
    ∀ (ms : ModeState) (pending : Bytes), Q ms → pending.length < thr →
      Q (feedBytes step u thr ms pending input).1 ∧
      (feedBytes step u thr ms pending input).2.1.length < thr ∧
      (∃ k, (feedBytes step u thr ms pending input).2.2.length = k * u) ∧
      (feedBytes step u thr ms pending input).2.2.length +
        (feedBytes step u thr ms pending input).2.1.length =
        pending.length + input.length := by
  induction input with
  | nil =>
    intro ms pending hQ hp
    refine ⟨hQ, by simpa [feedBytes_nil] using hp, ⟨0, by simp [feedBytes_nil]⟩, ?_⟩
    simp [feedBytes_nil]
  | cons x rest ih =>
    intro ms pending hQ hp
    by_cases h : thr ≤ (pending ++ [x]).length
    · have hpx : (pending ++ [x]).length = thr := by
        simp only [List.length_append, List.length_cons, List.length_nil] at h ⊢
        omega
      have htk : ((pending ++ [x]).take u).length = u := by
        rw [List.length_take, hpx]
        omega
      have hs := hstep ms ((pending ++ [x]).take u) hQ htk
      have hdr : ((pending ++ [x]).drop u).length < thr := by
        rw [List.length_drop, hpx]
        omega
      have ihr := ih (step ms ((pending ++ [x]).take u)).1 ((pending ++ [x]).drop u)
        hs.2 hdr
      rw [feedBytes_cons, if_pos h]
      obtain ⟨k, hk⟩ := ihr.2.2.1
      refine ⟨ihr.1, ihr.2.1, ⟨k + 1, ?_⟩, ?_⟩
      · simp only [List.length_append, hk, hs.1]
        ring
      · have hc := ihr.2.2.2
        have hs1 := hs.1
        have hthr : pending.length + 1 = thr := by simpa using hpx
        simp only [List.length_append, List.length_drop, List.length_cons,
          List.length_nil] at hc hs1 ⊢
        omega
    · have hpx : (pending ++ [x]).length < thr := by omega
      have ihr := ih ms (pending ++ [x]) hQ hpx
      rw [feedBytes_cons, if_neg h]
      refine ⟨ihr.1, ihr.2.1, ihr.2.2.1, ?_⟩
      have hc := ihr.2.2.2
      simp only [List.length_append, List.length_cons, List.length_nil] at hc ⊢
      omega

/-! Decomposition of a byte string into whole units plus a short tail, and
related counting facts. -/

theorem flatten_length_all (u : Nat) (bl : List Bytes)
    (h : ∀ b ∈ bl, b.length = u) : bl.flatten.length = bl.length * u := by
  induction bl with
  | nil => simp
  | cons b bl ih =>
    simp only [List.flatten_cons, List.length_append, List.length_cons]
    rw [h b (by simp), ih (fun x hx => h x (by simp [hx]))]
    ring

theorem exists_chunks (u : Nat) (hu : 0 < u) (p : Bytes) :
    ∃ (bl : List Bytes) (rem : Bytes), p = bl.flatten ++ rem ∧
      (∀ b ∈ bl, b.length = u) ∧ rem.length < u := by
  have key : ∀ (n : Nat) (q : Bytes), q.length = n →
      ∃ (bl : List Bytes) (rem : Bytes), q = bl.flatten ++ rem ∧
        (∀ b ∈ bl, b.length = u) ∧ rem.length < u := by
    intro n
    induction n using Nat.strong_induction_on with
    | _ n ihn =>
      intro q hq
      by_cases h : q.length < u
      · exact ⟨[], q, by simp, by simp, h⟩
      · have h1 : (q.take u).length = u := by rw [List.length_take]; omega
        have h2 : (q.drop u).length < n := by rw [List.length_drop]; omega
        obtain ⟨bl, rem, he, hbl, hr⟩ := ihn (q.drop u).length (by omega) (q.drop u) rfl
        refine ⟨q.take u :: bl, rem, ?_, ?_, hr⟩
        · rw [List.flatten_cons, List.append_assoc, ← he, List.take_append_drop]
        · intro b hb
          rcases List.mem_cons.mp hb with hb | hb
          · rw [hb]; exact h1
          · exact hbl b hb
  exact key p.length p rfl

theorem exists_blocks_of_dvd (u : Nat) (hu : 0 < u) (p : Bytes)
    (hd : u ∣ p.length) : ∃ bl : List Bytes, p = bl.flatten ∧ ∀ b ∈ bl, b.length = u := by
  obtain ⟨bl, rem, he, hbl, hr⟩ := exists_chunks u hu p
  have hfl := flatten_length_all u bl hbl
  obtain ⟨k, hk⟩ := hd
  have hlen : p.length = bl.length * u + rem.length := by
    rw [he, List.length_append, hfl]
  have hmod : rem.length = 0 := by
    have h1 : p.length % u = 0 := by rw [hk]; exact Nat.mul_mod_right u k
    have h2 : (bl.length * u + rem.length) % u = rem.length % u := by
      simp [Nat.add_mul_mod_self_left, Nat.mul_mod_left, Nat.add_comm]
    rw [hlen] at h1
    rw [h2] at h1
    rwa [Nat.mod_eq_of_lt hr] at h1
  have : rem = [] := List.eq_nil_of_length_eq_zero hmod
  exact ⟨bl, by rw [he, this, List.append_nil], hbl⟩

theorem chunks_rem_mod (u : Nat) (bl : List Bytes) (rem : Bytes)
    (hbl : ∀ b ∈ bl, b.length = u) (hr : rem.length < u) :
    (bl.flatten ++ rem).length % u = rem.length := by
  rw [List.length_append, flatten_length_all u bl hbl]
  rw [Nat.add_comm, Nat.add_mul_mod_self_right]
  exact Nat.mod_eq_of_lt hr

theorem flatten_map_singleton (p : Bytes) : (p.map (fun x => [x])).flatten = p := by
  induction p with
  | nil => rfl
  | cons x rest ih => simp [ih]

/-! Session-level unfolding and inversion lemmas for create, update and
final. -/

theorem optLen_getD (o : Option Bytes) : optLen o = (o.getD []).length := by
  cases o <;> rfl

theorem create_ok_fields (P : Primitives) (op : CCOperation) (mode : CCMode)
    (alg : CCAlgorithm) (padding : CCPadding) (iv : Option Bytes) (key : Bytes)
    (tweak : Option Bytes) (nr opts : Nat) (c : CCCryptor)
    (h : CCCryptorCreateWithMode P op mode alg padding iv key tweak nr opts = .ok c) :
    c = { prim := P, op := op, alg := alg, mode := mode, padding := padding
          le := decide (opts % 2 = 1)
          ms := initModeState mode (decide (opts % 2 = 1)) (iv.getD []) (tweak.getD [])
          pending := [], total := 0, finalized := false } ∧
    ¬ mode = .kCCModeF8 ∧ ¬ mode = .kCCModeLRW ∧
    keySizeValid alg key.length ∧
    (mode = .kCCModeRC4 → alg = .kCCAlgorithmRC4) ∧
    (¬ mode = .kCCModeRC4 → ¬ blockSize alg = 0) ∧
    ¬ (padding = .kCCPaddingPKCS7 ∧ isStreamMode mode = true) ∧
    ¬ (padding = .kCCPaddingPKCS7 ∧ mode = .kCCModeXTS) ∧
    (modeUsesIV mode = true → optLen iv = blockSize alg) ∧
    (mode = .kCCModeXTS → optLen tweak = blockSize alg) := by
  unfold CCCryptorCreateWithMode at h
  split_ifs at h with h1 h2 h3 h4 h5 h6 h7 h8
  injection h with h
  subst h
  push_neg at h1 h3 h4 h5 h6 h7 h8
  refine ⟨rfl, h1.1, h1.2, h2, ?_, ?_, ?_, ?_, ?_, ?_⟩
  · intro hm
    exact h3 hm
  · exact h4
  · intro hc
    exact absurd hc.2 (h5 hc.1)
  · intro hc
    exact absurd hc.2 (h6 hc.1)
  · intro hm
    exact h7 hm
  · intro hm
    exact h8 hm

theorem initModeState_msMode (mode : CCMode) (le : Bool) (iv tweak : Bytes)
    (h1 : ¬ mode = .kCCModeF8) (h2 : ¬ mode = .kCCModeLRW) :
    msMode (initModeState mode le iv tweak) = mode := by
  cases mode <;> first
    | rfl
    | exact absurd rfl h1
    | exact absurd rfl h2

theorem initModeState_wf (mode : CCMode) (le : Bool) (bs : Nat) (iv tweak : Bytes)
    (hiv : modeUsesIV mode = true → iv.length = bs)
    (htw : mode = .kCCModeXTS → tweak.length = bs) :
    msWF bs (initModeState mode le iv tweak) := by
  cases mode <;>
    simp_all [initModeState, msWF, modeUsesIV]

theorem update_eq (c : CCCryptor) (input : Bytes) (h : c.finalized = false) :
    CCCryptorUpdate c input = .ok ({ c with
      ms := (feedBytes (stepMode c.prim c.op) (unitOf c.mode (blockSize c.alg))
        (thrOf c) c.ms c.pending input).1
      pending := (feedBytes (stepMode c.prim c.op) (unitOf c.mode (blockSize c.alg))
        (thrOf c) c.ms c.pending input).2.1
      total := c.total + input.length },
      (feedBytes (stepMode c.prim c.op) (unitOf c.mode (blockSize c.alg))
        (thrOf c) c.ms c.pending input).2.2) := by
  simp [CCCryptorUpdate, h]

theorem runSession_ok (c : CCCryptor) (p : Bytes) (c1 : CCCryptor) (o1 : Bytes)
    (c2 : CCCryptor) (o2 : Bytes) (hu : CCCryptorUpdate c p = .ok (c1, o1))
    (hf : CCCryptorFinal c1 = .ok (c2, o2)) :
    runSession c p = .ok (o1 ++ o2) := by
  unfold runSession
  rw [hu]
  show (fun a : CCCryptor × Bytes => o1 ++ a.2) <$> CCCryptorFinal c1 =
    Except.ok (o1 ++ o2)
  rw [hf]
  rfl

theorem final_block_pad_enc (c : CCCryptor) (h : c.finalized = false)
    (hm : c.mode = .kCCModeECB ∨ c.mode = .kCCModeCBC)
    (hpad : c.padding = .kCCPaddingPKCS7) (hop : c.op = .kCCEncrypt) :
    CCCryptorFinal c = .ok
      (finishWith c (stepMode c.prim c.op c.ms
          (pkcs7pad (blockSize c.alg) c.pending)).1,
        (stepMode c.prim c.op c.ms (pkcs7pad (blockSize c.alg) c.pending)).2) := by
  rcases hm with hm | hm <;> simp [CCCryptorFinal, h, hm, hpad, hop]

theorem final_block_nopad (c : CCCryptor) (h : c.finalized = false)
    (hm : c.mode = .kCCModeECB ∨ c.mode = .kCCModeCBC ∨ c.mode = .kCCModeXTS)
    (hpad : c.padding = .kCCPaddingNone) :
    CCCryptorFinal c = if c.pending = [] then .ok (finishWith c c.ms, [])
      else .error kCCParamError := by
  rcases hm with hm | hm | hm <;>
    by_cases hp : c.pending = [] <;>
      simp [CCCryptorFinal, h, hm, hpad, hp, finishWith]

theorem final_stream (c : CCCryptor) (h : c.finalized = false)
    (hm : isStreamMode c.mode = true) :
    CCCryptorFinal c = .ok
      (finishWith c (stepMode c.prim c.op c.ms c.pending).1,
        (stepMode c.prim c.op c.ms c.pending).2) := by
  have hcases : c.mode = .kCCModeCFB ∨ c.mode = .kCCModeCFB8 ∨ c.mode = .kCCModeOFB ∨
      c.mode = .kCCModeCTR ∨ c.mode = .kCCModeRC4 := by
    cases hmode : c.mode <;> simp_all [isStreamMode]
  rcases hcases with hm2 | hm2 | hm2 | hm2 | hm2 <;>
    simp [CCCryptorFinal, h, hm2]

/-! PKCS7 padding facts: the padded block has block length, its trailing
fill is the fill count, and validation recovers exactly the payload. -/

theorem pkcs7pad_length (bs : Nat) (rem : Bytes) (h : rem.length ≤ bs) :
    (pkcs7pad bs rem).length = bs := by
  simp [pkcs7pad]
  omega

theorem pkcs7pad_getLastD (bs : Nat) (rem : Bytes) (h : rem.length < bs) :
    (pkcs7pad bs rem).getLastD 0 = bs - rem.length := by
  unfold pkcs7pad
  have h2 : List.replicate (bs - rem.length) (bs - rem.length) ≠ [] := by
    simp
    omega
  rw [List.getLastD_eq_getLast?, List.getLast?_append_of_ne_nil _ h2]
  have h3 : ∃ m, bs - rem.length = m + 1 := ⟨bs - rem.length - 1, by omega⟩
  obtain ⟨m, hm⟩ := h3
  rw [hm]
  simp [List.getLast?_replicate]

theorem pkcs7pad_drop (bs : Nat) (rem : Bytes) :
    (pkcs7pad bs rem).drop rem.length =
      List.replicate (bs - rem.length) (bs - rem.length) := by
  unfold pkcs7pad
  exact List.drop_left rem _

theorem pkcs7pad_take (bs : Nat) (rem : Bytes) :
    (pkcs7pad bs rem).take rem.length = rem := by
  unfold pkcs7pad
  exact List.take_left rem _

/-! Stream-mode partial-unit facts, specialized update lemmas for the two
buffering regimes, and the final-branch computation for padded decrypt. -/

theorem stepMode_out_len_stream (P : Primitives) (op : CCOperation) (bs : Nat)
    (ms : ModeState) (b : Bytes) (hP : PrimInv P bs) (hwf : msWF bs ms)
    (hmode : msMode ms = .kCCModeCFB ∨ msMode ms = .kCCModeOFB ∨
      msMode ms = .kCCModeCTR) :
    (stepMode P op ms b).2.length = min b.length bs := by
  obtain ⟨hE, hD, hI⟩ := hP
  cases ms <;> simp [msMode] at hmode <;> simp only [msWF] at hwf
  · cases op <;> simp [stepMode, xorB_length, hE _ hwf]
  · simp [stepMode, xorB_length, hE _ hwf]
  · cases op <;> simp [stepMode, xorB_length, hE _ hwf]

theorem stepMode_partial_inv (P : Primitives) (bs : Nat) (ms : ModeState) (b : Bytes)
    (hP : PrimInv P bs) (hwf : msWF bs ms)
    (hmode : msMode ms = .kCCModeCFB ∨ msMode ms = .kCCModeOFB ∨
      msMode ms = .kCCModeCTR)
    (hb : b.length ≤ bs) :
    (stepMode P .kCCDecrypt ms (stepMode P .kCCEncrypt ms b).2).2 = b := by
  obtain ⟨hE, hD, hI⟩ := hP
  cases ms <;> simp [msMode] at hmode <;> simp only [msWF] at hwf
  · simp [stepMode, xorB_cancel b _ (by rw [hE _ hwf]; exact hb)]
  · simp [stepMode, xorB_cancel b _ (by rw [hE _ hwf]; exact hb)]
  · simp [stepMode, xorB_cancel b _ (by rw [hE _ hwf]; exact hb)]

theorem update_greedy (P : Primitives) (op : CCOperation) (alg : CCAlgorithm)
    (mode : CCMode) (padding : CCPadding) (le : Bool) (ms0 : ModeState)
    (bl : List Bytes) (rem : Bytes) (u : Nat) (hu : 0 < u)
    (hthr : thrOf (mkSession P op alg mode padding le ms0) = u)
    (hunit : unitOf mode (blockSize alg) = u)
    (hbl : ∀ b ∈ bl, b.length = u) (hrem : rem.length < u) :
    CCCryptorUpdate (mkSession P op alg mode padding le ms0) (bl.flatten ++ rem) = .ok
      ({ mkSession P op alg mode padding le ms0 with
          ms := (runBlocks (stepMode P op) ms0 bl).1
          pending := rem
          total := (bl.flatten ++ rem).length },
        (runBlocks (stepMode P op) ms0 bl).2.flatten) := by
  rw [update_eq _ _ rfl]
  simp only [mkSession] at hthr ⊢
  rw [hthr, hunit]
  rw [feedBytes_greedy (stepMode P op) u hu bl rem ms0 hbl hrem]
  simp

theorem update_withhold (P : Primitives) (alg : CCAlgorithm) (mode : CCMode)
    (le : Bool) (ms0 : ModeState) (bl : List Bytes) (lastb : Bytes)
    (hbs : 0 < blockSize alg)
    (hthr : thrOf (mkSession P .kCCDecrypt alg mode .kCCPaddingPKCS7 le ms0) =
      blockSize alg + 1)
    (hunit : unitOf mode (blockSize alg) = blockSize alg)
    (hbl : ∀ b ∈ bl, b.length = blockSize alg) (hlast : lastb.length = blockSize alg) :
    CCCryptorUpdate (mkSession P .kCCDecrypt alg mode .kCCPaddingPKCS7 le ms0)
      ((bl ++ [lastb]).flatten) = .ok
      ({ mkSession P .kCCDecrypt alg mode .kCCPaddingPKCS7 le ms0 with
          ms := (runBlocks (stepMode P .kCCDecrypt) ms0 bl).1
          pending := lastb
          total := ((bl ++ [lastb]).flatten).length },
        (runBlocks (stepMode P .kCCDecrypt) ms0 bl).2.flatten) := by
  rw [update_eq _ _ rfl]
  simp only [mkSession] at hthr ⊢
  rw [hthr, hunit]
  rw [feedBytes_withhold_top (stepMode P .kCCDecrypt) (blockSize alg) hbs bl lastb ms0
    hbl hlast]
  simp

theorem final_block_pad_dec (c : CCCryptor) (h : c.finalized = false)
    (hm : c.mode = .kCCModeECB ∨ c.mode = .kCCModeCBC)
    (hpad : c.padding = .kCCPaddingPKCS7) (hop : c.op = .kCCDecrypt)
    (hlen : c.pending.length = blockSize c.alg) :
    CCCryptorFinal c =
      (if (stepMode c.prim c.op c.ms c.pending).2.getLastD 0 = 0 ∨
          blockSize c.alg < (stepMode c.prim c.op c.ms c.pending).2.getLastD 0 then
        .error kCCDecodeError
      else if ((stepMode c.prim c.op c.ms c.pending).2.drop
          (blockSize c.alg - (stepMode c.prim c.op c.ms c.pending).2.getLastD 0)).all
          (fun x => x == (stepMode c.prim c.op c.ms c.pending).2.getLastD 0) then
        .ok (finishWith c (stepMode c.prim c.op c.ms c.pending).1,
          (stepMode c.prim c.op c.ms c.pending).2.take
            (blockSize c.alg - (stepMode c.prim c.op c.ms c.pending).2.getLastD 0))
      else .error kCCDecodeError) := by
  rcases hm with hm | hm <;> simp [CCCryptorFinal, h, hm, hpad, hop, hlen]

/-! The round-trip property, one class of modes at a time. -/

theorem roundtrip_block_pad (P : Primitives) (alg : CCAlgorithm) (mode : CCMode)
    (le : Bool) (ms0 : ModeState) (p : Bytes)
    (hP : PrimInv P (blockSize alg)) (hbs : 0 < blockSize alg)
    (hm : mode = .kCCModeECB ∨ mode = .kCCModeCBC)
    (hwf : msWF (blockSize alg) ms0) (hmm : msMode ms0 = mode) :
    ∃ ct,
      runSession (mkSession P .kCCEncrypt alg mode .kCCPaddingPKCS7 le ms0) p = .ok ct ∧
      runSession (mkSession P .kCCDecrypt alg mode .kCCPaddingPKCS7 le ms0) ct = .ok p := by
  obtain ⟨bl, rem, rfl, hbl, hrem⟩ := exists_chunks (blockSize alg) hbs p
  have hunit : unitOf mode (blockSize alg) = blockSize alg := by
    rcases hm with rfl | rfl <;> rfl
  have hblu : ∀ b ∈ bl, b.length = unitOf (msMode ms0) (blockSize alg) := by
    intro b hb
    rw [hmm, hunit]
    exact hbl b hb
  have hA := runBlocks_wf P .kCCEncrypt (blockSize alg) hP bl ms0 hwf hblu
  have hpadlen : (pkcs7pad (blockSize alg) rem).length = blockSize alg :=
    pkcs7pad_length _ _ (Nat.le_of_lt hrem)
  have hpadu : (pkcs7pad (blockSize alg) rem).length =
      unitOf (msMode (runBlocks (stepMode P .kCCEncrypt) ms0 bl).1) (blockSize alg) := by
    rw [hA.2.1, hmm, hunit]
    exact hpadlen
  have hs := stepMode_len P .kCCEncrypt (blockSize alg)
    (runBlocks (stepMode P .kCCEncrypt) ms0 bl).1 (pkcs7pad (blockSize alg) rem)
    hP hA.1 hpadu
  have hinv := runBlocks_inv P (blockSize alg) hP bl ms0 hwf hblu
  have hsinv := stepMode_inv P (blockSize alg)
    (runBlocks (stepMode P .kCCEncrypt) ms0 bl).1 (pkcs7pad (blockSize alg) rem)
    hP hA.1 hpadu
  have hthrE : thrOf (mkSession P .kCCEncrypt alg mode .kCCPaddingPKCS7 le ms0) =
      blockSize alg := by
    simp [thrOf, mkSession, hunit]
  have hupdE := update_greedy P .kCCEncrypt alg mode .kCCPaddingPKCS7 le ms0 bl rem
    (blockSize alg) hbs hthrE hunit hbl hrem
  have hfinE := final_block_pad_enc
    ({ mkSession P .kCCEncrypt alg mode .kCCPaddingPKCS7 le ms0 with
        ms := (runBlocks (stepMode P .kCCEncrypt) ms0 bl).1
        pending := rem
        total := (bl.flatten ++ rem).length }) rfl hm rfl rfl
  have hencrun := runSession_ok _ _ _ _ _ _ hupdE hfinE
  simp only [mkSession] at hencrun
  refine ⟨_, hencrun, ?_⟩
  -- decrypt side: the ciphertext re-chunks into the encrypt output blocks
  -- followed by the final padded block's image
  have hctshape :
      (runBlocks (stepMode P .kCCEncrypt) ms0 bl).2.flatten ++
        (stepMode P .kCCEncrypt (runBlocks (stepMode P .kCCEncrypt) ms0 bl).1
          (pkcs7pad (blockSize alg) rem)).2 =
      ((runBlocks (stepMode P .kCCEncrypt) ms0 bl).2 ++
        [(stepMode P .kCCEncrypt (runBlocks (stepMode P .kCCEncrypt) ms0 bl).1
          (pkcs7pad (blockSize alg) rem)).2]).flatten := by
    simp
  have hctbl : ∀ b ∈ (runBlocks (stepMode P .kCCEncrypt) ms0 bl).2,
      b.length = blockSize alg := by
    intro b hb
    rw [← hunit, ← hmm]
    exact hA.2.2.1 b hb
  have hctlast : (stepMode P .kCCEncrypt (runBlocks (stepMode P .kCCEncrypt) ms0 bl).1
      (pkcs7pad (blockSize alg) rem)).2.length = blockSize alg := by
    rw [hs.1]
    exact hpadlen
  have hthrD : thrOf (mkSession P .kCCDecrypt alg mode .kCCPaddingPKCS7 le ms0) =
      blockSize alg + 1 := by
    simp [thrOf, mkSession]
  have hupdD := update_withhold P alg mode le ms0
    (runBlocks (stepMode P .kCCEncrypt) ms0 bl).2
    (stepMode P .kCCEncrypt (runBlocks (stepMode P .kCCEncrypt) ms0 bl).1
      (pkcs7pad (blockSize alg) rem)).2
    hbs hthrD hunit hctbl hctlast
  rw [hinv] at hupdD
  simp only [mkSession] at hupdD
  -- the final on the decrypt side validates and strips the padding
  have hkval : (pkcs7pad (blockSize alg) rem).getLastD 0 = blockSize alg - rem.length :=
    pkcs7pad_getLastD _ _ hrem
  have hdropidx : blockSize alg - (blockSize alg - rem.length) = rem.length := by omega
  have hkne : ¬ ((blockSize alg - rem.length) = 0 ∨
      blockSize alg < blockSize alg - rem.length) := by omega
  have hallk : (List.replicate (blockSize alg - rem.length)
      (blockSize alg - rem.length)).all
      (fun x => x == (blockSize alg - rem.length)) = true := by
    rw [List.all_eq_true]
    intro x hx
    simp [List.eq_of_mem_replicate hx]
  have hfinD : CCCryptorFinal
      { prim := P, op := .kCCDecrypt, alg := alg, mode := mode
        padding := .kCCPaddingPKCS7, le := le
        ms := (runBlocks (stepMode P .kCCEncrypt) ms0 bl).1
        pending := (stepMode P .kCCEncrypt (runBlocks (stepMode P .kCCEncrypt) ms0 bl).1
          (pkcs7pad (blockSize alg) rem)).2
        total := (((runBlocks (stepMode P .kCCEncrypt) ms0 bl).2 ++
          [(stepMode P .kCCEncrypt (runBlocks (stepMode P .kCCEncrypt) ms0 bl).1
            (pkcs7pad (blockSize alg) rem)).2]).flatten).length
        finalized := false } = .ok
      (finishWith
        { prim := P, op := .kCCDecrypt, alg := alg, mode := mode
          padding := .kCCPaddingPKCS7, le := le
          ms := (runBlocks (stepMode P .kCCEncrypt) ms0 bl).1
          pending := (stepMode P .kCCEncrypt (runBlocks (stepMode P .kCCEncrypt) ms0 bl).1
            (pkcs7pad (blockSize alg) rem)).2
          total := (((runBlocks (stepMode P .kCCEncrypt) ms0 bl).2 ++
            [(stepMode P .kCCEncrypt (runBlocks (stepMode P .kCCEncrypt) ms0 bl).1
              (pkcs7pad (blockSize alg) rem)).2]).flatten).length
          finalized := false }
        (stepMode P .kCCEncrypt (runBlocks (stepMode P .kCCEncrypt) ms0 bl).1
          (pkcs7pad (blockSize alg) rem)).1, rem) := by
    rw [final_block_pad_dec _ rfl hm rfl rfl hctlast]
    simp only [hsinv, hkval, hdropidx, pkcs7pad_drop, pkcs7pad_take]
    rw [if_neg hkne, if_pos hallk]
  have hdecrun := runSession_ok _ _ _ _ _ _ hupdD hfinD
  rw [hctshape]
  simp only [mkSession]
  exact hdecrun

theorem roundtrip_block_nopad (P : Primitives) (alg : CCAlgorithm) (mode : CCMode)
    (le : Bool) (ms0 : ModeState) (p : Bytes)
    (hP : PrimInv P (blockSize alg)) (hbs : 0 < blockSize alg)
    (hm : mode = .kCCModeECB ∨ mode = .kCCModeCBC ∨ mode = .kCCModeXTS)
    (hwf : msWF (blockSize alg) ms0) (hmm : msMode ms0 = mode)
    (hal : blockSize alg ∣ p.length) :
    ∃ ct,
      runSession (mkSession P .kCCEncrypt alg mode .kCCPaddingNone le ms0) p = .ok ct ∧
      runSession (mkSession P .kCCDecrypt alg mode .kCCPaddingNone le ms0) ct = .ok p := by
  obtain ⟨bl, rfl, hbl⟩ := exists_blocks_of_dvd (blockSize alg) hbs p hal
  have hunit : unitOf mode (blockSize alg) = blockSize alg := by
    rcases hm with rfl | rfl | rfl <;> rfl
  have hblu : ∀ b ∈ bl, b.length = unitOf (msMode ms0) (blockSize alg) := by
    intro b hb
    rw [hmm, hunit]
    exact hbl b hb
  have hA := runBlocks_wf P .kCCEncrypt (blockSize alg) hP bl ms0 hwf hblu
  have hinv := runBlocks_inv P (blockSize alg) hP bl ms0 hwf hblu
  have hthrE : thrOf (mkSession P .kCCEncrypt alg mode .kCCPaddingNone le ms0) =
      blockSize alg := by
    simp [thrOf, mkSession, hunit]
  have hthrD : thrOf (mkSession P .kCCDecrypt alg mode .kCCPaddingNone le ms0) =
      blockSize alg := by
    simp [thrOf, mkSession, hunit]
  have hupdE := update_greedy P .kCCEncrypt alg mode .kCCPaddingNone le ms0 bl []
    (blockSize alg) hbs hthrE hunit hbl (by simpa using hbs)
  have hfinE : CCCryptorFinal
      ({ mkSession P .kCCEncrypt alg mode .kCCPaddingNone le ms0 with
          ms := (runBlocks (stepMode P .kCCEncrypt) ms0 bl).1
          pending := ([] : Bytes)
          total := (bl.flatten ++ ([] : Bytes)).length }) = .ok
      (finishWith
        ({ mkSession P .kCCEncrypt alg mode .kCCPaddingNone le ms0 with
            ms := (runBlocks (stepMode P .kCCEncrypt) ms0 bl).1
            pending := ([] : Bytes)
            total := (bl.flatten ++ ([] : Bytes)).length })
        (runBlocks (stepMode P .kCCEncrypt) ms0 bl).1, []) := by
    rw [final_block_nopad _ rfl (by tauto) rfl]
    rw [if_pos rfl]
  have hencrun := runSession_ok _ _ _ _ _ _ hupdE hfinE
  simp only [mkSession, List.append_nil] at hencrun
  refine ⟨_, hencrun, ?_⟩
  have hctbl : ∀ b ∈ (runBlocks (stepMode P .kCCEncrypt) ms0 bl).2,
      b.length = blockSize alg := by
    intro b hb
    rw [← hunit, ← hmm]
    exact hA.2.2.1 b hb
  have hupdD := update_greedy P .kCCDecrypt alg mode .kCCPaddingNone le ms0
    (runBlocks (stepMode P .kCCEncrypt) ms0 bl).2 [] (blockSize alg) hbs hthrD hunit
    hctbl (by simpa using hbs)
  rw [hinv] at hupdD
  simp only [mkSession] at hupdD
  have hfinD : CCCryptorFinal
      { prim := P, op := .kCCDecrypt, alg := alg, mode := mode
        padding := .kCCPaddingNone, le := le
        ms := (runBlocks (stepMode P .kCCEncrypt) ms0 bl).1
        pending := ([] : Bytes)
        total := ((runBlocks (stepMode P .kCCEncrypt) ms0 bl).2.flatten ++
          ([] : Bytes)).length
        finalized := false } = .ok
      (finishWith
        { prim := P, op := .kCCDecrypt, alg := alg, mode := mode
          padding := .kCCPaddingNone, le := le
          ms := (runBlocks (stepMode P .kCCEncrypt) ms0 bl).1
          pending := ([] : Bytes)
          total := ((runBlocks (stepMode P .kCCEncrypt) ms0 bl).2.flatten ++
            ([] : Bytes)).length
          finalized := false }
        (runBlocks (stepMode P .kCCEncrypt) ms0 bl).1, []) := by
    rw [final_block_nopad _ rfl (by tauto) rfl]
    rw [if_pos rfl]
  have hdecrun := runSession_ok _ _ _ _ _ _ hupdD hfinD
  simp only [mkSession]
  simpa using hdecrun

theorem roundtrip_stream (P : Primitives) (alg : CCAlgorithm) (mode : CCMode)
    (le : Bool) (ms0 : ModeState) (p : Bytes)
    (hP : PrimInv P (blockSize alg)) (hbs : 0 < blockSize alg)
    (hm : mode = .kCCModeCFB ∨ mode = .kCCModeOFB ∨ mode = .kCCModeCTR)
    (hwf : msWF (blockSize alg) ms0) (hmm : msMode ms0 = mode) :
    ∃ ct,
      runSession (mkSession P .kCCEncrypt alg mode .kCCPaddingNone le ms0) p = .ok ct ∧
      runSession (mkSession P .kCCDecrypt alg mode .kCCPaddingNone le ms0) ct = .ok p := by
  obtain ⟨bl, rem, rfl, hbl, hrem⟩ := exists_chunks (blockSize alg) hbs p
  have hunit : unitOf mode (blockSize alg) = blockSize alg := by
    rcases hm with rfl | rfl | rfl <;> rfl
  have hstream : isStreamMode mode = true := by
    rcases hm with rfl | rfl | rfl <;> rfl
  have hblu : ∀ b ∈ bl, b.length = unitOf (msMode ms0) (blockSize alg) := by
    intro b hb
    rw [hmm, hunit]
    exact hbl b hb
  have hA := runBlocks_wf P .kCCEncrypt (blockSize alg) hP bl ms0 hwf hblu
  have hinv := runBlocks_inv P (blockSize alg) hP bl ms0 hwf hblu
  have hAmode : msMode (runBlocks (stepMode P .kCCEncrypt) ms0 bl).1 = .kCCModeCFB ∨
      msMode (runBlocks (stepMode P .kCCEncrypt) ms0 bl).1 = .kCCModeOFB ∨
      msMode (runBlocks (stepMode P .kCCEncrypt) ms0 bl).1 = .kCCModeCTR := by
    rw [hA.2.1, hmm]
    exact hm
  have hthrE : thrOf (mkSession P .kCCEncrypt alg mode .kCCPaddingNone le ms0) =
      blockSize alg := by
    simp [thrOf, mkSession, hunit]
  have hthrD : thrOf (mkSession P .kCCDecrypt alg mode .kCCPaddingNone le ms0) =
      blockSize alg := by
    simp [thrOf, mkSession, hunit]
  have hupdE := update_greedy P .kCCEncrypt alg mode .kCCPaddingNone le ms0 bl rem
    (blockSize alg) hbs hthrE hunit hbl hrem
  have hfinE := final_stream
    ({ mkSession P .kCCEncrypt alg mode .kCCPaddingNone le ms0 with
        ms := (runBlocks (stepMode P .kCCEncrypt) ms0 bl).1
        pending := rem
        total := (bl.flatten ++ rem).length }) rfl hstream
  have hencrun := runSession_ok _ _ _ _ _ _ hupdE hfinE
  simp only [mkSession] at hencrun
  refine ⟨_, hencrun, ?_⟩
  have hctbl : ∀ b ∈ (runBlocks (stepMode P .kCCEncrypt) ms0 bl).2,
      b.length = blockSize alg := by
    intro b hb
    rw [← hunit, ← hmm]
    exact hA.2.2.1 b hb
  have hsfinlen : (stepMode P .kCCEncrypt (runBlocks (stepMode P .kCCEncrypt) ms0 bl).1
      rem).2.length < blockSize alg := by
    rw [stepMode_out_len_stream P .kCCEncrypt (blockSize alg) _ rem hP hA.1 hAmode]
    omega
  have hupdD := update_greedy P .kCCDecrypt alg mode .kCCPaddingNone le ms0
    (runBlocks (stepMode P .kCCEncrypt) ms0 bl).2
    (stepMode P .kCCEncrypt (runBlocks (stepMode P .kCCEncrypt) ms0 bl).1 rem).2
    (blockSize alg) hbs hthrD hunit hctbl hsfinlen
  rw [hinv] at hupdD
  simp only [mkSession] at hupdD
  have hout : (stepMode P .kCCDecrypt (runBlocks (stepMode P .kCCEncrypt) ms0 bl).1
      (stepMode P .kCCEncrypt (runBlocks (stepMode P .kCCEncrypt) ms0 bl).1 rem).2).2 =
      rem :=
    stepMode_partial_inv P (blockSize alg) _ rem hP hA.1 hAmode (Nat.le_of_lt hrem)
  have hfinD : CCCryptorFinal
      { prim := P, op := .kCCDecrypt, alg := alg, mode := mode
        padding := .kCCPaddingNone, le := le
        ms := (runBlocks (stepMode P .kCCEncrypt) ms0 bl).1
        pending := (stepMode P .kCCEncrypt (runBlocks (stepMode P .kCCEncrypt) ms0 bl).1
          rem).2
        total := ((runBlocks (stepMode P .kCCEncrypt) ms0 bl).2.flatten ++
          (stepMode P .kCCEncrypt (runBlocks (stepMode P .kCCEncrypt) ms0 bl).1
            rem).2).length
        finalized := false } = .ok
      (finishWith
        { prim := P, op := .kCCDecrypt, alg := alg, mode := mode
          padding := .kCCPaddingNone, le := le
          ms := (runBlocks (stepMode P .kCCEncrypt) ms0 bl).1
          pending := (stepMode P .kCCEncrypt
            (runBlocks (stepMode P .kCCEncrypt) ms0 bl).1 rem).2
          total := ((runBlocks (stepMode P .kCCEncrypt) ms0 bl).2.flatten ++
            (stepMode P .kCCEncrypt (runBlocks (stepMode P .kCCEncrypt) ms0 bl).1
              rem).2).length
          finalized := false }
        (stepMode P .kCCDecrypt (runBlocks (stepMode P .kCCEncrypt) ms0 bl).1
          (stepMode P .kCCEncrypt (runBlocks (stepMode P .kCCEncrypt) ms0 bl).1
            rem).2).1, rem) := by
    rw [final_stream _ rfl hstream]
    rw [hout]
  have hdecrun := runSession_ok _ _ _ _ _ _ hupdD hfinD
  simp only [mkSession]
  exact hdecrun

theorem stepMode_nil_byte (P : Primitives) (op : CCOperation) (ms : ModeState)
    (hmode : msMode ms = .kCCModeCFB8 ∨ msMode ms = .kCCModeRC4) :
    (stepMode P op ms ([] : Bytes)).2 = [] := by
  cases ms <;> simp [msMode] at hmode <;> cases op <;> rfl

theorem roundtrip_byte (P : Primitives) (alg : CCAlgorithm) (mode : CCMode)
    (le : Bool) (ms0 : ModeState) (p : Bytes)
    (hP : PrimInv P (blockSize alg))
    (hm : mode = .kCCModeCFB8 ∨ mode = .kCCModeRC4)
    (hwf : msWF (blockSize alg) ms0) (hmm : msMode ms0 = mode) :
    ∃ ct,
      runSession (mkSession P .kCCEncrypt alg mode .kCCPaddingNone le ms0) p = .ok ct ∧
      runSession (mkSession P .kCCDecrypt alg mode .kCCPaddingNone le ms0) ct = .ok p := by
  have hunit : unitOf mode (blockSize alg) = 1 := by
    rcases hm with rfl | rfl <;> rfl
  have hstream : isStreamMode mode = true := by
    rcases hm with rfl | rfl <;> rfl
  have hflat : (p.map (fun x => [x])).flatten = p := flatten_map_singleton p
  have hbl : ∀ b ∈ p.map (fun x => [x]), b.length = 1 := by
    intro b hb
    obtain ⟨x, _, rfl⟩ := List.mem_map.mp hb
    rfl
  have hblu : ∀ b ∈ p.map (fun x => [x]),
      b.length = unitOf (msMode ms0) (blockSize alg) := by
    intro b hb
    rw [hmm, hunit]
    exact hbl b hb
  have hA := runBlocks_wf P .kCCEncrypt (blockSize alg) hP (p.map (fun x => [x])) ms0
    hwf hblu
  have hinv := runBlocks_inv P (blockSize alg) hP (p.map (fun x => [x])) ms0 hwf hblu
  have hAmode : msMode (runBlocks (stepMode P .kCCEncrypt) ms0
      (p.map (fun x => [x]))).1 = .kCCModeCFB8 ∨
      msMode (runBlocks (stepMode P .kCCEncrypt) ms0 (p.map (fun x => [x]))).1 =
        .kCCModeRC4 := by
    rw [hA.2.1, hmm]
    exact hm
  have hthrE : thrOf (mkSession P .kCCEncrypt alg mode .kCCPaddingNone le ms0) = 1 := by
    simp [thrOf, mkSession, hunit]
  have hthrD : thrOf (mkSession P .kCCDecrypt alg mode .kCCPaddingNone le ms0) = 1 := by
    simp [thrOf, mkSession, hunit]
  have hupdE := update_greedy P .kCCEncrypt alg mode .kCCPaddingNone le ms0
    (p.map (fun x => [x])) [] 1 one_pos hthrE hunit hbl (by simp)
  have hfinE := final_stream
    ({ mkSession P .kCCEncrypt alg mode .kCCPaddingNone le ms0 with
        ms := (runBlocks (stepMode P .kCCEncrypt) ms0 (p.map (fun x => [x]))).1
        pending := ([] : Bytes)
        total := ((p.map (fun x => [x])).flatten ++ ([] : Bytes)).length }) rfl hstream
  have hencrun := runSession_ok _ _ _ _ _ _ hupdE hfinE
  simp only [mkSession, List.append_nil, hflat] at hencrun
  rw [stepMode_nil_byte P .kCCEncrypt _ hAmode] at hencrun
  simp only [List.append_nil] at hencrun
  refine ⟨_, hencrun, ?_⟩
  have hctbl : ∀ b ∈ (runBlocks (stepMode P .kCCEncrypt) ms0 (p.map (fun x => [x]))).2,
      b.length = 1 := by
    intro b hb
    rw [← hunit, ← hmm]
    exact hA.2.2.1 b hb
  have hupdD := update_greedy P .kCCDecrypt alg mode .kCCPaddingNone le ms0
    (runBlocks (stepMode P .kCCEncrypt) ms0 (p.map (fun x => [x]))).2 [] 1 one_pos
    hthrD hunit hctbl (by simp)
  rw [hinv] at hupdD
  simp only [mkSession] at hupdD
  have hfinD := final_stream
    ({ mkSession P .kCCDecrypt alg mode .kCCPaddingNone le ms0 with
        ms := (runBlocks (stepMode P .kCCEncrypt) ms0 (p.map (fun x => [x]))).1
        pending := ([] : Bytes)
        total := ((runBlocks (stepMode P .kCCEncrypt) ms0
          (p.map (fun x => [x]))).2.flatten ++ ([] : Bytes)).length }) rfl hstream
  simp only [mkSession] at hfinD
  rw [stepMode_nil_byte P .kCCDecrypt _ hAmode] at hfinD
  have hdecrun := runSession_ok _ _ _ _ _ _ hupdD hfinD
  simp only [mkSession]
  simpa [hflat] using hdecrun

/-- C1: for every supported algorithm/mode/padding combination accepted by
CCCryptorCreateWithMode with a valid key and IV, and any injected block
cipher satisfying its contract, a decrypt session run over the output of
an encrypt session with the same parameters (one update followed by final)
returns the original plaintext; plaintexts of every length are covered,
with block alignment required exactly in the padding-free whole-block
modes. -/
theorem C1_encrypt_decrypt_roundtrip (P : Primitives) (mode : CCMode)
    (alg : CCAlgorithm) (padding : CCPadding) (iv : Option Bytes) (key : Bytes)
    (tweak : Option Bytes) (nr opts : Nat) (p : Bytes) (ce cd : CCCryptor)
    (hP : PrimInv P (blockSize alg))
    (he : CCCryptorCreateWithMode P .kCCEncrypt mode alg padding iv key tweak nr
      opts = .ok ce)
    (hd : CCCryptorCreateWithMode P .kCCDecrypt mode alg padding iv key tweak nr
      opts = .ok cd)
    (hal : padding = .kCCPaddingNone → isStreamMode mode = false →
      blockSize alg ∣ p.length) :
    ∃ ct, runSession ce p = .ok ct ∧ runSession cd ct = .ok p := by
  obtain ⟨hce, hf8, hlrw, hkey, hrc4, hbs0, hpadstream, hpadxts, hiv, htw⟩ :=
    create_ok_fields _ _ _ _ _ _ _ _ _ _ _ he
  obtain ⟨hcd, -, -, -, -, -, -, -, -, -⟩ :=
    create_ok_fields _ _ _ _ _ _ _ _ _ _ _ hd
  subst hce
  subst hcd
  have hmm : msMode (initModeState mode (decide (opts % 2 = 1)) (iv.getD [])
      (tweak.getD [])) = mode := initModeState_msMode _ _ _ _ hf8 hlrw
  have hwf : msWF (blockSize alg) (initModeState mode (decide (opts % 2 = 1))
      (iv.getD []) (tweak.getD [])) :=
    initModeState_wf _ _ _ _ _
      (fun h => by rw [← optLen_getD]; exact hiv h)
      (fun h => by rw [← optLen_getD]; exact htw h)
  cases mode with
  | kCCModeF8 => exact absurd rfl hf8
  | kCCModeLRW => exact absurd rfl hlrw
  | kCCModeECB =>
    have hbs : 0 < blockSize alg := Nat.pos_of_ne_zero (hbs0 (by decide))
    cases padding with
    | kCCPaddingPKCS7 =>
      exact roundtrip_block_pad P alg _ _ _ p hP hbs (Or.inl rfl) hwf hmm
    | kCCPaddingNone =>
      exact roundtrip_block_nopad P alg _ _ _ p hP hbs (Or.inl rfl) hwf hmm
        (hal rfl rfl)
  | kCCModeCBC =>
    have hbs : 0 < blockSize alg := Nat.pos_of_ne_zero (hbs0 (by decide))
    cases padding with
    | kCCPaddingPKCS7 =>
      exact roundtrip_block_pad P alg _ _ _ p hP hbs (Or.inr rfl) hwf hmm
    | kCCPaddingNone =>
      exact roundtrip_block_nopad P alg _ _ _ p hP hbs (Or.inr (Or.inl rfl)) hwf hmm
        (hal rfl rfl)
  | kCCModeXTS =>
    have hbs : 0 < blockSize alg := Nat.pos_of_ne_zero (hbs0 (by decide))
    cases padding with
    | kCCPaddingPKCS7 => exact absurd ⟨rfl, rfl⟩ hpadxts
    | kCCPaddingNone =>
      exact roundtrip_block_nopad P alg _ _ _ p hP hbs (Or.inr (Or.inr rfl)) hwf hmm
        (hal rfl rfl)
  | kCCModeCFB =>
    have hbs : 0 < blockSize alg := Nat.pos_of_ne_zero (hbs0 (by decide))
    cases padding with
    | kCCPaddingPKCS7 => exact absurd ⟨rfl, rfl⟩ hpadstream
    | kCCPaddingNone =>
      exact roundtrip_stream P alg _ _ _ p hP hbs (Or.inl rfl) hwf hmm
  | kCCModeOFB =>
    have hbs : 0 < blockSize alg := Nat.pos_of_ne_zero (hbs0 (by decide))
    cases padding with
    | kCCPaddingPKCS7 => exact absurd ⟨rfl, rfl⟩ hpadstream
    | kCCPaddingNone =>
      exact roundtrip_stream P alg _ _ _ p hP hbs (Or.inr (Or.inl rfl)) hwf hmm
  | kCCModeCTR =>
    have hbs : 0 < blockSize alg := Nat.pos_of_ne_zero (hbs0 (by decide))
    cases padding with
    | kCCPaddingPKCS7 => exact absurd ⟨rfl, rfl⟩ hpadstream
    | kCCPaddingNone =>
      exact roundtrip_stream P alg _ _ _ p hP hbs (Or.inr (Or.inr rfl)) hwf hmm
  | kCCModeCFB8 =>
    cases padding with
    | kCCPaddingPKCS7 => exact absurd ⟨rfl, rfl⟩ hpadstream
    | kCCPaddingNone =>
      exact roundtrip_byte P alg _ _ _ p hP (Or.inl rfl) hwf hmm
  | kCCModeRC4 =>
    cases padding with
    | kCCPaddingPKCS7 => exact absurd ⟨rfl, rfl⟩ hpadstream
    | kCCPaddingNone =>
      exact roundtrip_byte P alg _ _ _ p hP (Or.inr rfl) hwf hmm

/-- Witness for C1: the round-trip theorem applied to a concrete
DES/CBC/PKCS7 session over the identity primitive with a 3-byte
plaintext. -/
theorem C1_encrypt_decrypt_roundtrip_witness :
    ∃ ct, runSession ceW [1, 2, 3] = .ok ct ∧ runSession cdW ct = .ok [1, 2, 3] :=
  C1_encrypt_decrypt_roundtrip Pid .kCCModeCBC .kCCAlgorithmDES .kCCPaddingPKCS7
    (some ivW) keyW none 0 0 [1, 2, 3] ceW cdW
    ⟨fun _ h => h, fun _ h => h, fun _ _ => rfl⟩ rfl rfl
    (fun h _ => absurd h (by decide))

theorem pkcs7_contract_session (P : Primitives) (alg : CCAlgorithm) (mode : CCMode)
    (le : Bool) (ms0 : ModeState) (p : Bytes)
    (hP : PrimInv P (blockSize alg)) (hbs : 0 < blockSize alg)
    (hm : mode = .kCCModeECB ∨ mode = .kCCModeCBC)
    (hwf : msWF (blockSize alg) ms0) (hmm : msMode ms0 = mode) :
    ∃ ct,
      runSession (mkSession P .kCCEncrypt alg mode .kCCPaddingPKCS7 le ms0) p = .ok ct ∧
      ct.length = (p.length / blockSize alg + 1) * blockSize alg ∧
      runSession (mkSession P .kCCEncrypt alg mode .kCCPaddingNone le ms0)
        (p ++ List.replicate (blockSize alg - p.length % blockSize alg)
          (blockSize alg - p.length % blockSize alg)) = .ok ct ∧
      runSession (mkSession P .kCCDecrypt alg mode .kCCPaddingPKCS7 le ms0) ct = .ok p := by
  obtain ⟨bl, rem, rfl, hbl, hrem⟩ := exists_chunks (blockSize alg) hbs p
  have hremmod : (bl.flatten ++ rem).length % blockSize alg = rem.length :=
    chunks_rem_mod _ bl rem hbl hrem
  have hunit : unitOf mode (blockSize alg) = blockSize alg := by
    rcases hm with rfl | rfl <;> rfl
  have hblu : ∀ b ∈ bl, b.length = unitOf (msMode ms0) (blockSize alg) := by
    intro b hb
    rw [hmm, hunit]
    exact hbl b hb
  have hA := runBlocks_wf P .kCCEncrypt (blockSize alg) hP bl ms0 hwf hblu
  have hpadlen : (pkcs7pad (blockSize alg) rem).length = blockSize alg :=
    pkcs7pad_length _ _ (Nat.le_of_lt hrem)
  have hpadu : (pkcs7pad (blockSize alg) rem).length =
      unitOf (msMode (runBlocks (stepMode P .kCCEncrypt) ms0 bl).1) (blockSize alg) := by
    rw [hA.2.1, hmm, hunit]
    exact hpadlen
  have hs := stepMode_len P .kCCEncrypt (blockSize alg)
    (runBlocks (stepMode P .kCCEncrypt) ms0 bl).1 (pkcs7pad (blockSize alg) rem)
    hP hA.1 hpadu
  have hinv := runBlocks_inv P (blockSize alg) hP bl ms0 hwf hblu
  have hsinv := stepMode_inv P (blockSize alg)
    (runBlocks (stepMode P .kCCEncrypt) ms0 bl).1 (pkcs7pad (blockSize alg) rem)
    hP hA.1 hpadu
  have hthrE : thrOf (mkSession P .kCCEncrypt alg mode .kCCPaddingPKCS7 le ms0) =
      blockSize alg := by
    simp [thrOf, mkSession, hunit]
  have hupdE := update_greedy P .kCCEncrypt alg mode .kCCPaddingPKCS7 le ms0 bl rem
    (blockSize alg) hbs hthrE hunit hbl hrem
  have hfinE := final_block_pad_enc
    ({ mkSession P .kCCEncrypt alg mode .kCCPaddingPKCS7 le ms0 with
        ms := (runBlocks (stepMode P .kCCEncrypt) ms0 bl).1
        pending := rem
        total := (bl.flatten ++ rem).length }) rfl hm rfl rfl
  have hencrun := runSession_ok _ _ _ _ _ _ hupdE hfinE
  simp only [mkSession] at hencrun
  refine ⟨_, hencrun, ?_, ?_, ?_⟩
  -- length of the ciphertext
  · have hlenp : (bl.flatten ++ rem).length = bl.length * blockSize alg + rem.length := by
      rw [List.length_append, flatten_length_all _ bl hbl]
    have hdiv : (bl.flatten ++ rem).length / blockSize alg = bl.length := by
      rw [hlenp, Nat.mul_comm, Nat.mul_add_div hbs, Nat.div_eq_of_lt hrem]
      omega
    rw [hdiv, List.length_append, flatten_length_all (blockSize alg)
      (runBlocks (stepMode P .kCCEncrypt) ms0 bl).2 (by
        intro b hb
        rw [← hunit, ← hmm]
        exact hA.2.2.1 b hb)]
    rw [hA.2.2.2, hs.1, hpadlen]
    ring
  -- the padded session's output equals the unpadded session over the
  -- explicitly padded plaintext
  · have hshape : bl.flatten ++ rem ++
        List.replicate (blockSize alg - ((bl.flatten ++ rem).length % blockSize alg))
          (blockSize alg - ((bl.flatten ++ rem).length % blockSize alg)) =
        (bl ++ [pkcs7pad (blockSize alg) rem]).flatten := by
      rw [hremmod]
      simp [pkcs7pad, List.append_assoc]
    rw [hshape]
    have hblp : ∀ b ∈ bl ++ [pkcs7pad (blockSize alg) rem], b.length = blockSize alg := by
      intro b hb
      rcases List.mem_append.mp hb with hb | hb
      · exact hbl b hb
      · simp at hb
        rw [hb]
        exact hpadlen
    have hthrN : thrOf (mkSession P .kCCEncrypt alg mode .kCCPaddingNone le ms0) =
        blockSize alg := by
      simp [thrOf, mkSession, hunit]
    have hupdN := update_greedy P .kCCEncrypt alg mode .kCCPaddingNone le ms0
      (bl ++ [pkcs7pad (blockSize alg) rem]) [] (blockSize alg) hbs hthrN hunit hblp
      (by simpa using hbs)
    have hfinN : CCCryptorFinal
        ({ mkSession P .kCCEncrypt alg mode .kCCPaddingNone le ms0 with
            ms := (runBlocks (stepMode P .kCCEncrypt) ms0
              (bl ++ [pkcs7pad (blockSize alg) rem])).1
            pending := ([] : Bytes)
            total := ((bl ++ [pkcs7pad (blockSize alg) rem]).flatten ++
              ([] : Bytes)).length }) = .ok
        (finishWith
          ({ mkSession P .kCCEncrypt alg mode .kCCPaddingNone le ms0 with
              ms := (runBlocks (stepMode P .kCCEncrypt) ms0
                (bl ++ [pkcs7pad (blockSize alg) rem])).1
              pending := ([] : Bytes)
              total := ((bl ++ [pkcs7pad (blockSize alg) rem]).flatten ++
                ([] : Bytes)).length })
          (runBlocks (stepMode P .kCCEncrypt) ms0
            (bl ++ [pkcs7pad (blockSize alg) rem])).1, []) := by
      rw [final_block_nopad _ rfl (by tauto) rfl]
      rw [if_pos rfl]
    have hrunN := runSession_ok _ _ _ _ _ _ hupdN hfinN
    simp only [mkSession, List.append_nil] at hrunN
    simp only [mkSession]
    rw [hrunN]
    -- outputs agree: runBlocks over bl ++ [padBlk] splits
    rw [runBlocks_append]
    simp [runBlocks]
  -- decrypting returns the original plaintext
  · have hctshape :
        (runBlocks (stepMode P .kCCEncrypt) ms0 bl).2.flatten ++
          (stepMode P .kCCEncrypt (runBlocks (stepMode P .kCCEncrypt) ms0 bl).1
            (pkcs7pad (blockSize alg) rem)).2 =
        ((runBlocks (stepMode P .kCCEncrypt) ms0 bl).2 ++
          [(stepMode P .kCCEncrypt (runBlocks (stepMode P .kCCEncrypt) ms0 bl).1
            (pkcs7pad (blockSize alg) rem)).2]).flatten := by
      simp
    have hctbl : ∀ b ∈ (runBlocks (stepMode P .kCCEncrypt) ms0 bl).2,
        b.length = blockSize alg := by
      intro b hb
      rw [← hunit, ← hmm]
      exact hA.2.2.1 b hb
    have hctlast : (stepMode P .kCCEncrypt (runBlocks (stepMode P .kCCEncrypt) ms0 bl).1
        (pkcs7pad (blockSize alg) rem)).2.length = blockSize alg := by
      rw [hs.1]
      exact hpadlen
    have hthrD : thrOf (mkSession P .kCCDecrypt alg mode .kCCPaddingPKCS7 le ms0) =
        blockSize alg + 1 := by
      simp [thrOf, mkSession]
    have hupdD := update_withhold P alg mode le ms0
      (runBlocks (stepMode P .kCCEncrypt) ms0 bl).2
      (stepMode P .kCCEncrypt (runBlocks (stepMode P .kCCEncrypt) ms0 bl).1
        (pkcs7pad (blockSize alg) rem)).2
      hbs hthrD hunit hctbl hctlast
    rw [hinv] at hupdD
    simp only [mkSession] at hupdD
    have hkval : (pkcs7pad (blockSize alg) rem).getLastD 0 =
        blockSize alg - rem.length := pkcs7pad_getLastD _ _ hrem
    have hdropidx : blockSize alg - (blockSize alg - rem.length) = rem.length := by omega
    have hkne : ¬ ((blockSize alg - rem.length) = 0 ∨
        blockSize alg < blockSize alg - rem.length) := by omega
    have hallk : (List.replicate (blockSize alg - rem.length)
        (blockSize alg - rem.length)).all
        (fun x => x == (blockSize alg - rem.length)) = true := by
      rw [List.all_eq_true]
      intro x hx
      simp [List.eq_of_mem_replicate hx]
    have hfinD : CCCryptorFinal
        { prim := P, op := .kCCDecrypt, alg := alg, mode := mode
          padding := .kCCPaddingPKCS7, le := le
          ms := (runBlocks (stepMode P .kCCEncrypt) ms0 bl).1
          pending := (stepMode P .kCCEncrypt (runBlocks (stepMode P .kCCEncrypt) ms0 bl).1
            (pkcs7pad (blockSize alg) rem)).2
          total := (((runBlocks (stepMode P .kCCEncrypt) ms0 bl).2 ++
            [(stepMode P .kCCEncrypt (runBlocks (stepMode P .kCCEncrypt) ms0 bl).1
              (pkcs7pad (blockSize alg) rem)).2]).flatten).length
          finalized := false } = .ok
        (finishWith
          { prim := P, op := .kCCDecrypt, alg := alg, mode := mode
            padding := .kCCPaddingPKCS7, le := le
            ms := (runBlocks (stepMode P .kCCEncrypt) ms0 bl).1
            pending := (stepMode P .kCCEncrypt
              (runBlocks (stepMode P .kCCEncrypt) ms0 bl).1
              (pkcs7pad (blockSize alg) rem)).2
            total := (((runBlocks (stepMode P .kCCEncrypt) ms0 bl).2 ++
              [(stepMode P .kCCEncrypt (runBlocks (stepMode P .kCCEncrypt) ms0 bl).1
                (pkcs7pad (blockSize alg) rem)).2]).flatten).length
            finalized := false }
          (stepMode P .kCCEncrypt (runBlocks (stepMode P .kCCEncrypt) ms0 bl).1
            (pkcs7pad (blockSize alg) rem)).1, rem) := by
      rw [final_block_pad_dec _ rfl hm rfl rfl hctlast]
      simp only [hsinv, hkval, hdropidx, pkcs7pad_drop, pkcs7pad_take]
      rw [if_neg hkne, if_pos hallk]
    have hdecrun := runSession_ok _ _ _ _ _ _ hupdD hfinD
    rw [hctshape]
    simp only [mkSession]
    exact hdecrun

/-- C2: for a whole-block mode with PKCS7 padding, the encrypt session's
final appends padding whose byte value k equals the bytes needed to reach
block size (1 ≤ k ≤ blockSize, with a full extra block k = blockSize when
the plaintext is block-aligned, never zero padding): the produced
ciphertext equals the padding-free encryption of p ++ replicate k k and is
one block longer than the plaintext rounded down; the matching decrypt
session's final removes exactly that padding and returns p. -/
theorem C2_pkcs7_padding (P : Primitives) (mode : CCMode) (alg : CCAlgorithm)
    (iv : Option Bytes) (key : Bytes) (tweak : Option Bytes) (nr opts : Nat)
    (p : Bytes) (ce cenp cd : CCCryptor)
    (hP : PrimInv P (blockSize alg))
    (he : CCCryptorCreateWithMode P .kCCEncrypt mode alg .kCCPaddingPKCS7 iv key
      tweak nr opts = .ok ce)
    (henp : CCCryptorCreateWithMode P .kCCEncrypt mode alg .kCCPaddingNone iv key
      tweak nr opts = .ok cenp)
    (hd : CCCryptorCreateWithMode P .kCCDecrypt mode alg .kCCPaddingPKCS7 iv key
      tweak nr opts = .ok cd) :
    1 ≤ blockSize alg - p.length % blockSize alg ∧
    blockSize alg - p.length % blockSize alg ≤ blockSize alg ∧
    (blockSize alg ∣ p.length →
      blockSize alg - p.length % blockSize alg = blockSize alg) ∧
    ∃ ct, runSession ce p = .ok ct ∧
      ct.length = (p.length / blockSize alg + 1) * blockSize alg ∧
      runSession cenp (p ++ List.replicate (blockSize alg - p.length % blockSize alg)
        (blockSize alg - p.length % blockSize alg)) = .ok ct ∧
      runSession cd ct = .ok p := by
  obtain ⟨hce, hf8, hlrw, hkey, hrc4, hbs0, hpadstream, hpadxts, hiv, htw⟩ :=
    create_ok_fields _ _ _ _ _ _ _ _ _ _ _ he
  obtain ⟨hcenp, -, -, -, -, -, -, -, -, -⟩ :=
    create_ok_fields _ _ _ _ _ _ _ _ _ _ _ henp
  obtain ⟨hcd, -, -, -, -, -, -, -, -, -⟩ :=
    create_ok_fields _ _ _ _ _ _ _ _ _ _ _ hd
  subst hce
  subst hcenp
  subst hcd
  have hm : mode = .kCCModeECB ∨ mode = .kCCModeCBC := by
    cases mode with
    | kCCModeECB => exact Or.inl rfl
    | kCCModeCBC => exact Or.inr rfl
    | kCCModeF8 => exact absurd rfl hf8
    | kCCModeLRW => exact absurd rfl hlrw
    | kCCModeXTS => exact absurd ⟨rfl, rfl⟩ hpadxts
    | kCCModeCFB => exact absurd ⟨rfl, rfl⟩ hpadstream
    | kCCModeCFB8 => exact absurd ⟨rfl, rfl⟩ hpadstream
    | kCCModeOFB => exact absurd ⟨rfl, rfl⟩ hpadstream
    | kCCModeCTR => exact absurd ⟨rfl, rfl⟩ hpadstream
    | kCCModeRC4 => exact absurd ⟨rfl, rfl⟩ hpadstream
  have hbs : 0 < blockSize alg :=
    Nat.pos_of_ne_zero (hbs0 (by rcases hm with rfl | rfl <;> decide))
  have hmm : msMode (initModeState mode (decide (opts % 2 = 1)) (iv.getD [])
      (tweak.getD [])) = mode := initModeState_msMode _ _ _ _ hf8 hlrw
  have hwf : msWF (blockSize alg) (initModeState mode (decide (opts % 2 = 1))
      (iv.getD []) (tweak.getD [])) :=
    initModeState_wf _ _ _ _ _
      (fun h => by rw [← optLen_getD]; exact hiv h)
      (fun h => by rw [← optLen_getD]; exact htw h)
  have hmod : p.length % blockSize alg < blockSize alg := Nat.mod_lt _ hbs
  refine ⟨by omega, by omega, ?_, ?_⟩
  · intro hdvd
    have h0 : p.length % blockSize alg = 0 := Nat.mod_eq_zero_of_dvd hdvd
    omega
  · exact pkcs7_contract_session P alg mode _ _ p hP hbs hm hwf hmm

/-- Witness for C2: the PKCS7 contract applied to a concrete
DES/CBC/PKCS7 session over the identity primitive with an 8-byte
(block-aligned) plaintext. -/
theorem C2_pkcs7_padding_witness :
    1 ≤ blockSize .kCCAlgorithmDES - 8 % blockSize .kCCAlgorithmDES ∧
    blockSize .kCCAlgorithmDES - 8 % blockSize .kCCAlgorithmDES ≤
      blockSize .kCCAlgorithmDES ∧
    (blockSize .kCCAlgorithmDES ∣ 8 →
      blockSize .kCCAlgorithmDES - 8 % blockSize .kCCAlgorithmDES =
        blockSize .kCCAlgorithmDES) ∧
    ∃ ct, runSession ceW [0, 0, 0, 0, 0, 0, 0, 0] = .ok ct ∧
      ct.length = (8 / blockSize .kCCAlgorithmDES + 1) * blockSize .kCCAlgorithmDES ∧
      runSession ceWnp ([0, 0, 0, 0, 0, 0, 0, 0] ++
        List.replicate (blockSize .kCCAlgorithmDES - 8 % blockSize .kCCAlgorithmDES)
          (blockSize .kCCAlgorithmDES - 8 % blockSize .kCCAlgorithmDES)) = .ok ct ∧
      runSession cdW ct = .ok [0, 0, 0, 0, 0, 0, 0, 0] := by
  have h := C2_pkcs7_padding Pid .kCCModeCBC .kCCAlgorithmDES (some ivW) keyW none 0 0
    [0, 0, 0, 0, 0, 0, 0, 0] ceW ceWnp cdW
    ⟨fun _ h => h, fun _ h => h, fun _ _ => rfl⟩ rfl rfl rfl
  simpa using h

/-! Fragmentation invariance: a sequence of updates is equivalent to a
single update over the concatenated input. -/

theorem updatesAll_eq_update (parts : List Bytes) :
    ∀ c : CCCryptor, c.finalized = false →
      updatesAll c parts = CCCryptorUpdate c parts.flatten := by
  induction parts with
  | nil =>
    intro c h
    show updatesAll c [] = CCCryptorUpdate c []
    rw [update_eq c [] h]
    rfl
  | cons a rest ih =>
    intro c h
    have h1 := update_eq c a h
    set c1 : CCCryptor := { c with
      ms := (feedBytes (stepMode c.prim c.op) (unitOf c.mode (blockSize c.alg))
        (thrOf c) c.ms c.pending a).1
      pending := (feedBytes (stepMode c.prim c.op) (unitOf c.mode (blockSize c.alg))
        (thrOf c) c.ms c.pending a).2.1
      total := c.total + a.length } with hc1
    simp only [updatesAll, h1]
    rw [ih c1 h]
    rw [update_eq c1 rest.flatten h]
    rw [List.flatten_cons, update_eq c (a ++ rest.flatten) h, feedBytes_append]
    simp [hc1, thrOf, List.append_assoc, Nat.add_assoc]

/-- C3: for every mode and every total input, any two fragmentations of
the same total input across update calls produce identical results — the
same concatenated update output and the same session state — and hence the
same concatenated session output once final's output is appended. -/
theorem C3_fragmentation_invariance (c : CCCryptor) (parts1 parts2 : List Bytes)
    (h : c.finalized = false) (hjoin : parts1.flatten = parts2.flatten) :
    updatesAll c parts1 = updatesAll c parts2 ∧
    (updatesAll c parts1).bind
        (fun r => (CCCryptorFinal r.1).map (fun f => r.2 ++ f.2)) =
      (updatesAll c parts2).bind
        (fun r => (CCCryptorFinal r.1).map (fun f => r.2 ++ f.2)) := by
  have heq : updatesAll c parts1 = updatesAll c parts2 := by
    rw [updatesAll_eq_update parts1 c h, updatesAll_eq_update parts2 c h, hjoin]
  exact ⟨heq, by rw [heq]⟩

/-- Witness for C3: byte-by-byte versus all-at-once fragmentation of a
3-byte input on a concrete DES/CBC/PKCS7 session. -/
theorem C3_fragmentation_invariance_witness :
    updatesAll ceW [[1], [2], [3]] = updatesAll ceW [[1, 2, 3]] ∧
    (updatesAll ceW [[1], [2], [3]]).bind
        (fun r => (CCCryptorFinal r.1).map (fun f => r.2 ++ f.2)) =
      (updatesAll ceW [[1, 2, 3]]).bind
        (fun r => (CCCryptorFinal r.1).map (fun f => r.2 ++ f.2)) :=
  C3_fragmentation_invariance ceW [[1], [2], [3]] [[1, 2, 3]] rfl rfl

/-! Output-length accounting for final, used for the getOutputLength upper
bound. -/

theorem final_ok_out_length (c1 c2 : CCCryptor) (o2 : Bytes)
    (hP : PrimInv c1.prim (blockSize c1.alg))
    (hwfms : msWF (blockSize c1.alg) c1.ms) (hmsmode : msMode c1.ms = c1.mode)
    (hpend : c1.pending.length < thrOf c1)
    (hpadwb : c1.padding = .kCCPaddingPKCS7 →
      c1.mode = .kCCModeECB ∨ c1.mode = .kCCModeCBC)
    (hf : CCCryptorFinal c1 = .ok (c2, o2)) :
    (c1.padding = .kCCPaddingPKCS7 ∧ c1.op = .kCCEncrypt →
      o2.length = blockSize c1.alg) ∧
    (¬ (c1.padding = .kCCPaddingPKCS7 ∧ c1.op = .kCCEncrypt) →
      o2.length ≤ c1.pending.length) := by
  by_cases hfin : c1.finalized
  · simp [CCCryptorFinal, hfin] at hf
  cases hcm : c1.mode with
  | kCCModeF8 => simp [CCCryptorFinal, hfin, hcm] at hf
  | kCCModeLRW => simp [CCCryptorFinal, hfin, hcm] at hf
  | kCCModeXTS =>
    constructor
    · intro hpe
      rcases hpadwb hpe.1 with h | h <;> rw [hcm] at h <;> exact absurd h (by decide)
    · intro _
      by_cases hp : c1.pending = []
      · simp only [CCCryptorFinal, hfin, Bool.false_eq_true, if_false, hcm, hp,
          if_true, if_pos rfl, Except.ok.injEq, Prod.mk.injEq] at hf
        obtain ⟨-, h2⟩ := hf
        simp [← h2]
      · simp [CCCryptorFinal, hfin, hcm, hp] at hf
  | kCCModeCFB =>
    constructor
    · intro hpe
      rcases hpadwb hpe.1 with h | h <;> rw [hcm] at h <;> exact absurd h (by decide)
    · intro _
      simp only [CCCryptorFinal, hfin, Bool.false_eq_true, if_false, hcm,
        Except.ok.injEq, Prod.mk.injEq] at hf
      rw [← hf.2]
      rw [stepMode_out_len_stream c1.prim c1.op (blockSize c1.alg) c1.ms c1.pending hP
        hwfms (by rw [hmsmode, hcm]; exact Or.inl rfl)]
      omega
  | kCCModeOFB =>
    constructor
    · intro hpe
      rcases hpadwb hpe.1 with h | h <;> rw [hcm] at h <;> exact absurd h (by decide)
    · intro _
      simp only [CCCryptorFinal, hfin, Bool.false_eq_true, if_false, hcm,
        Except.ok.injEq, Prod.mk.injEq] at hf
      rw [← hf.2]
      rw [stepMode_out_len_stream c1.prim c1.op (blockSize c1.alg) c1.ms c1.pending hP
        hwfms (by rw [hmsmode, hcm]; exact Or.inr (Or.inl rfl))]
      omega
  | kCCModeCTR =>
    constructor
    · intro hpe
      rcases hpadwb hpe.1 with h | h <;> rw [hcm] at h <;> exact absurd h (by decide)
    · intro _
      simp only [CCCryptorFinal, hfin, Bool.false_eq_true, if_false, hcm,
        Except.ok.injEq, Prod.mk.injEq] at hf
      rw [← hf.2]
      rw [stepMode_out_len_stream c1.prim c1.op (blockSize c1.alg) c1.ms c1.pending hP
        hwfms (by rw [hmsmode, hcm]; exact Or.inr (Or.inr rfl))]
      omega
  | kCCModeCFB8 =>
    constructor
    · intro hpe
      rcases hpadwb hpe.1 with h | h <;> rw [hcm] at h <;> exact absurd h (by decide)
    · intro _
      simp only [CCCryptorFinal, hfin, Bool.false_eq_true, if_false, hcm,
        Except.ok.injEq, Prod.mk.injEq] at hf
      rw [← hf.2]
      rcases hms : c1.ms <;> rw [hms] at hmsmode <;> simp [msMode, hcm] at hmsmode
      cases hop : c1.op <;> simp [stepMode, xorB_length] <;> omega
  | kCCModeRC4 =>
    constructor
    · intro hpe
      rcases hpadwb hpe.1 with h | h <;> rw [hcm] at h <;> exact absurd h (by decide)
    · intro _
      simp only [CCCryptorFinal, hfin, Bool.false_eq_true, if_false, hcm,
        Except.ok.injEq, Prod.mk.injEq] at hf
      rw [← hf.2]
      rcases hms : c1.ms <;> rw [hms] at hmsmode <;> simp [msMode, hcm] at hmsmode
      cases hop : c1.op <;> simp [stepMode, xorB_length, ksBytes_length]
  | kCCModeECB =>
    rcases hpd : c1.padding with _ | _
    · constructor
      · intro hpe
        exact absurd hpe.1 (by decide)
      · intro _
        by_cases hp : c1.pending = []
        · simp only [CCCryptorFinal, hfin, Bool.false_eq_true, if_false, hcm, hpd, hp,
            if_true, if_pos rfl, Except.ok.injEq, Prod.mk.injEq] at hf
          obtain ⟨-, h2⟩ := hf
          simp [← h2]
        · simp [CCCryptorFinal, hfin, hcm, hpd, hp] at hf
    · rcases hop : c1.op with _ | _
      · constructor
        · intro _
          simp only [CCCryptorFinal, hfin, Bool.false_eq_true, if_false, hcm, hpd, hop,
            Except.ok.injEq, Prod.mk.injEq] at hf
          rw [← hf.2]
          have hthr : thrOf c1 = blockSize c1.alg := by
            simp [thrOf, hop, unitOf, hcm]
          rw [hthr] at hpend
          have hplen : (pkcs7pad (blockSize c1.alg) c1.pending).length =
              unitOf (msMode c1.ms) (blockSize c1.alg) := by
            rw [hmsmode, hcm]
            exact pkcs7pad_length _ _ (Nat.le_of_lt hpend)
          have := stepMode_len c1.prim .kCCEncrypt (blockSize c1.alg) c1.ms
            (pkcs7pad (blockSize c1.alg) c1.pending) hP hwfms hplen
          rw [this.1]
          exact pkcs7pad_length _ _ (Nat.le_of_lt hpend)
        · intro hne
          exact absurd ⟨rfl, rfl⟩ hne
      · constructor
        · intro hpe
          exact absurd hpe.2 (by decide)
        · intro _
          have hthr : thrOf c1 = blockSize c1.alg + 1 := by
            simp [thrOf, hop, hpd]
          by_cases hbl : c1.pending.length = blockSize c1.alg
          · simp only [CCCryptorFinal, hfin, Bool.false_eq_true, if_false, hcm, hpd, hop,
              hbl, if_true, if_pos rfl] at hf
            split_ifs at hf with hk1 hk2
            · simp only [Except.ok.injEq, Prod.mk.injEq] at hf
              rw [← hf.2]
              push_neg at hk1
              simp only [List.length_take]
              omega
          · simp [CCCryptorFinal, hfin, hcm, hpd, hop, hbl] at hf
  | kCCModeCBC =>
    rcases hpd : c1.padding with _ | _
    · constructor
      · intro hpe
        exact absurd hpe.1 (by decide)
      · intro _
        by_cases hp : c1.pending = []
        · simp only [CCCryptorFinal, hfin, Bool.false_eq_true, if_false, hcm, hpd, hp,
            if_true, if_pos rfl, Except.ok.injEq, Prod.mk.injEq] at hf
          obtain ⟨-, h2⟩ := hf
          simp [← h2]
        · simp [CCCryptorFinal, hfin, hcm, hpd, hp] at hf
    · rcases hop : c1.op with _ | _
      · constructor
        · intro _
          simp only [CCCryptorFinal, hfin, Bool.false_eq_true, if_false, hcm, hpd, hop,
            Except.ok.injEq, Prod.mk.injEq] at hf
          rw [← hf.2]
          have hthr : thrOf c1 = blockSize c1.alg := by
            simp [thrOf, hop, unitOf, hcm]
          rw [hthr] at hpend
          have hplen : (pkcs7pad (blockSize c1.alg) c1.pending).length =
              unitOf (msMode c1.ms) (blockSize c1.alg) := by
            rw [hmsmode, hcm]
            exact pkcs7pad_length _ _ (Nat.le_of_lt hpend)
          have := stepMode_len c1.prim .kCCEncrypt (blockSize c1.alg) c1.ms
            (pkcs7pad (blockSize c1.alg) c1.pending) hP hwfms hplen
          rw [this.1]
          exact pkcs7pad_length _ _ (Nat.le_of_lt hpend)
        · intro hne
          exact absurd ⟨rfl, rfl⟩ hne
      · constructor
        · intro hpe
          exact absurd hpe.2 (by decide)
        · intro _
          by_cases hbl : c1.pending.length = blockSize c1.alg
          · simp only [CCCryptorFinal, hfin, Bool.false_eq_true, if_false, hcm, hpd, hop,
              hbl, if_true, if_pos rfl] at hf
            split_ifs at hf with hk1 hk2
            · simp only [Except.ok.injEq, Prod.mk.injEq] at hf
              rw [← hf.2]
              push_neg at hk1
              simp only [List.length_take]
              omega
          · simp [CCCryptorFinal, hfin, hcm, hpd, hop, hbl] at hf

theorem getOutputLength_update_eq (c : CCCryptor) (len : Nat) :
    CCCryptorGetOutputLength c len false =
      (if unitOf c.mode (blockSize c.alg) = 1 then c.pending.length + len
       else (c.pending.length + len) / unitOf c.mode (blockSize c.alg) *
         unitOf c.mode (blockSize c.alg)) := by
  simp [CCCryptorGetOutputLength]

theorem getOutputLength_final_pad (c : CCCryptor) (len : Nat)
    (h : c.padding = .kCCPaddingPKCS7 ∧ c.op = .kCCEncrypt) :
    CCCryptorGetOutputLength c len true =
      ((c.pending.length + len) / blockSize c.alg + 1) * blockSize c.alg := by
  simp [CCCryptorGetOutputLength, h]

theorem getOutputLength_final_other (c : CCCryptor) (len : Nat)
    (h : ¬ (c.padding = .kCCPaddingPKCS7 ∧ c.op = .kCCEncrypt)) :
    CCCryptorGetOutputLength c len true = c.pending.length + len := by
  simp [CCCryptorGetOutputLength, h]

/-- C4: CCCryptorGetOutputLength returns an upper bound on the bytes
actually emitted: for a well-formed live session, the output of an
immediately following update with the given input length never exceeds the
non-final prediction, and the combined output of that update plus a
successful final never exceeds the final prediction, including the extra
padding block of a padded encrypt final. -/
theorem C4_getOutputLength_bound (c : CCCryptor) (input : Bytes) (c1 c2 : CCCryptor)
    (o1 o2 : Bytes) (hP : PrimInv c.prim (blockSize c.alg)) (hwf : cryptorWF c)
    (hnf : c.finalized = false) (hu : CCCryptorUpdate c input = .ok (c1, o1)) :
    o1.length ≤ CCCryptorGetOutputLength c input.length false ∧
    (CCCryptorFinal c1 = .ok (c2, o2) →
      o1.length + o2.length ≤ CCCryptorGetOutputLength c input.length true) := by
  obtain ⟨hmm0, hwfms, hpend, hf8, hlrw, hpadwb, hbs⟩ := hwf
  have hupos : 0 < unitOf c.mode (blockSize c.alg) := by
    cases hm : c.mode <;>
      first
        | exact one_pos
        | exact hbs (by rw [hm]; decide)
  have hut : unitOf c.mode (blockSize c.alg) ≤ thrOf c := by
    unfold thrOf
    split_ifs with h
    · rcases hpadwb h.2 with hm | hm <;> rw [hm] <;> simp [unitOf]
    · exact le_rfl
  have hstep : ∀ ms blk,
      (msWF (blockSize c.alg) ms ∧ msMode ms = c.mode) →
      blk.length = unitOf c.mode (blockSize c.alg) →
      (stepMode c.prim c.op ms blk).2.length = unitOf c.mode (blockSize c.alg) ∧
        (msWF (blockSize c.alg) (stepMode c.prim c.op ms blk).1 ∧
          msMode (stepMode c.prim c.op ms blk).1 = c.mode) := by
    intro ms blk hQ hblk
    have h1 := stepMode_len c.prim c.op (blockSize c.alg) ms blk hP hQ.1
      (by rw [hQ.2]; exact hblk)
    exact ⟨by rw [h1.1]; exact hblk, h1.2, by rw [stepMode_msMode]; exact hQ.2⟩
  have hspec := feedBytes_spec (stepMode c.prim c.op)
    (unitOf c.mode (blockSize c.alg)) (thrOf c)
    (fun ms => msWF (blockSize c.alg) ms ∧ msMode ms = c.mode)
    hupos hut hstep input c.ms c.pending ⟨hwfms, hmm0⟩ hpend
  rw [update_eq c input hnf] at hu
  simp only [Except.ok.injEq, Prod.mk.injEq] at hu
  obtain ⟨hc1, ho1⟩ := hu
  subst hc1
  subst ho1
  obtain ⟨k, hk⟩ := hspec.2.2.1
  have hcons := hspec.2.2.2
  constructor
  · rw [getOutputLength_update_eq]
    by_cases h1 : unitOf c.mode (blockSize c.alg) = 1
    · rw [if_pos h1]
      omega
    · rw [if_neg h1]
      have hle : k * unitOf c.mode (blockSize c.alg) ≤
          c.pending.length + input.length := by omega
      have hk2 : k ≤ (c.pending.length + input.length) /
          unitOf c.mode (blockSize c.alg) := (Nat.le_div_iff_mul_le hupos).mpr hle
      calc (feedBytes (stepMode c.prim c.op) (unitOf c.mode (blockSize c.alg))
            (thrOf c) c.ms c.pending input).2.2.length
          = k * unitOf c.mode (blockSize c.alg) := hk
        _ ≤ (c.pending.length + input.length) / unitOf c.mode (blockSize c.alg) *
            unitOf c.mode (blockSize c.alg) := Nat.mul_le_mul_right _ hk2
  · intro hfinal
    have hfl := final_ok_out_length
      ({ c with
        ms := (feedBytes (stepMode c.prim c.op) (unitOf c.mode (blockSize c.alg))
          (thrOf c) c.ms c.pending input).1
        pending := (feedBytes (stepMode c.prim c.op)
          (unitOf c.mode (blockSize c.alg)) (thrOf c) c.ms c.pending input).2.1
        total := c.total + input.length }) c2 o2 hP hspec.1.1 hspec.1.2 hspec.2.1
      hpadwb hfinal
    by_cases hpe : c.padding = .kCCPaddingPKCS7 ∧ c.op = .kCCEncrypt
    · have ho2 : o2.length = blockSize c.alg := hfl.1 hpe
      have hmode2 := hpadwb hpe.1
      have hubs : unitOf c.mode (blockSize c.alg) = blockSize c.alg := by
        rcases hmode2 with hm2 | hm2 <;> rw [hm2] <;> rfl
      have hbspos : 0 < blockSize c.alg := by
        rw [← hubs]
        exact hupos
      have hle : k * blockSize c.alg ≤ c.pending.length + input.length := by
        rw [← hubs]
        omega
      have hk2 : k ≤ (c.pending.length + input.length) / blockSize c.alg :=
        (Nat.le_div_iff_mul_le hbspos).mpr hle
      rw [getOutputLength_final_pad c input.length hpe]
      calc (feedBytes (stepMode c.prim c.op) (unitOf c.mode (blockSize c.alg))
            (thrOf c) c.ms c.pending input).2.2.length + o2.length
          = k * unitOf c.mode (blockSize c.alg) + blockSize c.alg := by rw [hk, ho2]
        _ = k * blockSize c.alg + blockSize c.alg := by rw [hubs]
        _ = (k + 1) * blockSize c.alg := (Nat.succ_mul k _).symm
        _ ≤ ((c.pending.length + input.length) / blockSize c.alg + 1) *
            blockSize c.alg :=
          Nat.mul_le_mul_right _ (Nat.add_le_add_right hk2 1)
    · have ho2 : o2.length ≤ (feedBytes (stepMode c.prim c.op)
          (unitOf c.mode (blockSize c.alg)) (thrOf c) c.ms c.pending
          input).2.1.length := hfl.2 hpe
      rw [getOutputLength_final_other c input.length hpe]
      omega

/-- Witness for C4: the bound applied to the concrete DES/CBC/PKCS7
session with a 3-byte input, whose update emits nothing and whose final
emits one 8-byte padded block. -/
theorem C4_getOutputLength_bound_witness :
    ([] : Bytes).length ≤ CCCryptorGetOutputLength ceW 3 false ∧
    ([] : Bytes).length + ([1, 2, 3, 5, 5, 5, 5, 5] : Bytes).length ≤
      CCCryptorGetOutputLength ceW 3 true := by
  have h := C4_getOutputLength_bound ceW [1, 2, 3]
    { prim := Pid, op := .kCCEncrypt, alg := .kCCAlgorithmDES, mode := .kCCModeCBC
      padding := .kCCPaddingPKCS7, le := false, ms := .cbc ivW
      pending := [1, 2, 3], total := 3, finalized := false }
    { prim := Pid, op := .kCCEncrypt, alg := .kCCAlgorithmDES, mode := .kCCModeCBC
      padding := .kCCPaddingPKCS7, le := false
      ms := .cbc [1, 2, 3, 5, 5, 5, 5, 5]
      pending := [], total := 3, finalized := true }
    [] [1, 2, 3, 5, 5, 5, 5, 5]
    ⟨fun _ h => h, fun _ h => h, fun _ _ => rfl⟩
    ⟨rfl, rfl, by decide, by decide, by decide, fun _ => Or.inr rfl,
      fun _ => by decide⟩
    rfl rfl
  exact ⟨h.1, h.2 rfl⟩

/-- C5: for a decrypt session in a block mode (ECB or CBC) with PKCS7
padding holding a full withheld block, if the decrypted block's trailing
fill byte is 0 or exceeds the block size, or the trailing fill bytes are
not all equal to the fill count, CCCryptorFinal fails with
kCCDecodeError: the session returns no partial plaintext from that
block. -/
theorem C5_invalid_padding_decode_error (c : CCCryptor)
    (hfin : c.finalized = false)
    (hmode : c.mode = .kCCModeECB ∨ c.mode = .kCCModeCBC)
    (hpad : c.padding = .kCCPaddingPKCS7)
    (hop : c.op = .kCCDecrypt)
    (hlen : c.pending.length = blockSize c.alg)
    (hbad : (stepMode c.prim c.op c.ms c.pending).2.getLastD 0 = 0 ∨
        blockSize c.alg < (stepMode c.prim c.op c.ms c.pending).2.getLastD 0 ∨
        ¬ ((stepMode c.prim c.op c.ms c.pending).2.drop
            (blockSize c.alg - (stepMode c.prim c.op c.ms c.pending).2.getLastD 0)).all
            (fun x => x == (stepMode c.prim c.op c.ms c.pending).2.getLastD 0)) :
    CCCryptorFinal c = .error kCCDecodeError := by
  rw [final_block_pad_dec c hfin hmode hpad hop hlen]
  rcases hbad with h0 | hlt | hne
  · rw [if_pos (Or.inl h0)]
  · rw [if_pos (Or.inr hlt)]
  · by_cases h1 : (stepMode c.prim c.op c.ms c.pending).2.getLastD 0 = 0 ∨
        blockSize c.alg < (stepMode c.prim c.op c.ms c.pending).2.getLastD 0
    · rw [if_pos h1]
    · rw [if_neg h1, if_neg hne]

/-- Witness for C5: the concrete decrypt/DES/CBC/PKCS7 session cdBad,
whose withheld block decrypts (identity cipher, zero IV) to an all-zero
block with fill byte 0, is rejected with kCCDecodeError. -/
theorem C5_invalid_padding_decode_error_witness :
    CCCryptorFinal cdBad = .error kCCDecodeError :=
  C5_invalid_padding_decode_error cdBad rfl (Or.inr rfl) rfl rfl (by decide)
    (Or.inl (by decide))

/-- C6: with padding disabled, a true block mode (ECB, CBC) whose total
input is not a multiple of the block size — so the pendingBuffer is
non-empty at finalize — fails CCCryptorFinal with kCCParamError rather
than silently truncating, while a stream-equivalent mode (CFB, CFB8, OFB,
CTR, RC4-stream) finalizes successfully on the same partial tail. -/
theorem C6_nopad_misaligned_final (c : CCCryptor) (input : Bytes) (c1 : CCCryptor)
    (o1 : Bytes) (hP : PrimInv c.prim (blockSize c.alg)) (hwf : cryptorWF c)
    (hnf : c.finalized = false) (hpad : c.padding = .kCCPaddingNone)
    (hstart : c.pending = []) (hu : CCCryptorUpdate c input = .ok (c1, o1)) :
    ((c.mode = .kCCModeECB ∨ c.mode = .kCCModeCBC) →
      ¬ (blockSize c.alg ∣ input.length) →
      CCCryptorFinal c1 = .error kCCParamError) ∧
    (isStreamMode c.mode = true → ∃ r, CCCryptorFinal c1 = .ok r) := by
  obtain ⟨hmm0, hwfms, hpend, hf8, hlrw, hpadwb, hbs⟩ := hwf
  have hupos : 0 < unitOf c.mode (blockSize c.alg) := by
    cases hm : c.mode <;>
      first
        | exact one_pos
        | exact hbs (by rw [hm]; decide)
  have hut : unitOf c.mode (blockSize c.alg) ≤ thrOf c := by
    unfold thrOf
    split_ifs with h
    · rcases hpadwb h.2 with hm | hm <;> rw [hm] <;> simp [unitOf]
    · exact le_rfl
  have hstep : ∀ ms blk,
      (msWF (blockSize c.alg) ms ∧ msMode ms = c.mode) →
      blk.length = unitOf c.mode (blockSize c.alg) →
      (stepMode c.prim c.op ms blk).2.length = unitOf c.mode (blockSize c.alg) ∧
        (msWF (blockSize c.alg) (stepMode c.prim c.op ms blk).1 ∧
          msMode (stepMode c.prim c.op ms blk).1 = c.mode) := by
    intro ms blk hQ hblk
    have h1 := stepMode_len c.prim c.op (blockSize c.alg) ms blk hP hQ.1
      (by rw [hQ.2]; exact hblk)
    exact ⟨by rw [h1.1]; exact hblk, h1.2, by rw [stepMode_msMode]; exact hQ.2⟩
  have hspec := feedBytes_spec (stepMode c.prim c.op)
    (unitOf c.mode (blockSize c.alg)) (thrOf c)
    (fun ms => msWF (blockSize c.alg) ms ∧ msMode ms = c.mode)
    hupos hut hstep input c.ms c.pending ⟨hwfms, hmm0⟩ hpend
  rw [update_eq c input hnf] at hu
  simp only [Except.ok.injEq, Prod.mk.injEq] at hu
  obtain ⟨hc1, ho1⟩ := hu
  subst hc1
  subst ho1
  obtain ⟨k, hk⟩ := hspec.2.2.1
  have hcons := hspec.2.2.2
  have hp0 : c.pending.length = 0 := by rw [hstart]; rfl
  constructor
  · intro hm hnd
    have hubs : unitOf c.mode (blockSize c.alg) = blockSize c.alg := by
      rcases hm with h | h <;> rw [h] <;> rfl
    have hne : ¬ ((feedBytes (stepMode c.prim c.op)
        (unitOf c.mode (blockSize c.alg)) (thrOf c) c.ms c.pending
        input).2.1 = []) := by
      intro h0
      apply hnd
      refine ⟨k, ?_⟩
      have h1 : input.length = (feedBytes (stepMode c.prim c.op)
          (unitOf c.mode (blockSize c.alg)) (thrOf c) c.ms c.pending
          input).2.2.length := by
        rw [h0] at hcons
        simp only [List.length_nil] at hcons
        omega
      rw [h1, hk, hubs, Nat.mul_comm]
    rw [final_block_nopad
      ({ c with
        ms := (feedBytes (stepMode c.prim c.op) (unitOf c.mode (blockSize c.alg))
          (thrOf c) c.ms c.pending input).1
        pending := (feedBytes (stepMode c.prim c.op)
          (unitOf c.mode (blockSize c.alg)) (thrOf c) c.ms c.pending input).2.1
        total := c.total + input.length }) hnf
      (by rcases hm with h | h
          · exact Or.inl h
          · exact Or.inr (Or.inl h)) hpad]
    split_ifs with hemp
    · exact absurd hemp hne
    · rfl
  · intro hsm
    exact ⟨_, final_stream _ hnf hsm⟩

/-- Witness for C6: the no-padding DES/ECB session fed 3 bytes (not a
multiple of the 8-byte block) fails final with kCCParamError, and the
DES/CTR stream session fed the same 3 bytes finalizes successfully. -/
theorem C6_nopad_misaligned_final_witness :
    CCCryptorFinal
      { prim := Pid, op := .kCCEncrypt, alg := .kCCAlgorithmDES,
        mode := .kCCModeECB, padding := .kCCPaddingNone, le := false, ms := .ecb,
        pending := [1, 2, 3], total := 3, finalized := false } =
      .error kCCParamError ∧
    ∃ r, CCCryptorFinal
      { prim := Pid, op := .kCCEncrypt,
        alg := .kCCAlgorithmDES, mode := .kCCModeCTR,
        padding := .kCCPaddingNone, le := false, ms := .ctr ivW false,
        pending := [1, 2, 3], total := 3, finalized := false } = .ok r := by
  have h1 := C6_nopad_misaligned_final ceECB [1, 2, 3]
    { prim := Pid, op := .kCCEncrypt, alg := .kCCAlgorithmDES
      mode := .kCCModeECB, padding := .kCCPaddingNone, le := false, ms := .ecb
      pending := [1, 2, 3], total := 3, finalized := false } []
    ⟨fun _ h => h, fun _ h => h, fun _ _ => rfl⟩
    ⟨rfl, trivial, by decide, by decide, by decide,
      fun h => absurd h (by decide), fun _ => by decide⟩
    rfl rfl rfl rfl
  have h2 := C6_nopad_misaligned_final ceCTR [1, 2, 3]
    { prim := Pid, op := .kCCEncrypt, alg := .kCCAlgorithmDES
      mode := .kCCModeCTR, padding := .kCCPaddingNone, le := false
      ms := .ctr ivW false, pending := [1, 2, 3], total := 3
      finalized := false } []
    ⟨fun _ h => h, fun _ h => h, fun _ _ => rfl⟩
    ⟨rfl, rfl, by decide, by decide, by decide,
      fun h => absurd h (by decide), fun _ => by decide⟩
    rfl rfl rfl rfl
  exact ⟨h1.1 (Or.inl rfl) (by decide), h2.2 rfl⟩

/-- C7: CCCryptorCreateWithMode rejects PKCS7 padding together with any
stream-equivalent mode (CFB, CFB8, OFB, CTR, RC4-stream) with a
configuration error (kCCParamError) and produces no session, and any
successful creation with PKCS7 padding is in a whole-block mode (ECB or
CBC). -/
theorem C7_pkcs7_mode_compat (P : Primitives) (op : CCOperation) (mode : CCMode)
    (alg : CCAlgorithm) (iv : Option Bytes) (key : Bytes) (tweak : Option Bytes)
    (nr opts : Nat) :
    (isStreamMode mode = true →
      CCCryptorCreateWithMode P op mode alg .kCCPaddingPKCS7 iv key tweak nr opts =
        .error kCCParamError) ∧
    (∀ c, CCCryptorCreateWithMode P op mode alg .kCCPaddingPKCS7 iv key tweak nr opts =
        .ok c → mode = .kCCModeECB ∨ mode = .kCCModeCBC) := by
  constructor
  · intro hsm
    have hns : ¬ (mode = .kCCModeF8 ∨ mode = .kCCModeLRW) := by
      cases mode <;> simp_all [isStreamMode]
    unfold CCCryptorCreateWithMode
    rw [if_neg hns]
    simp only [hsm, and_true]
    split_ifs <;> rfl
  · intro c h
    obtain ⟨_, hf8, hlrw, _, _, _, hns5, hnx, _, _⟩ :=
      create_ok_fields P op mode alg .kCCPaddingPKCS7 iv key tweak nr opts c h
    cases mode <;> simp_all [isStreamMode]

/-- Witness for C7: creating a DES/CTR session with PKCS7 padding fails
with kCCParamError, while the concrete DES/CBC/PKCS7 creation succeeds
(yielding ceW) and CBC is indeed one of the whole-block modes. -/
theorem C7_pkcs7_mode_compat_witness :
    CCCryptorCreateWithMode Pid .kCCEncrypt .kCCModeCTR .kCCAlgorithmDES
      .kCCPaddingPKCS7 (some ivW) keyW none 0 0 = .error kCCParamError ∧
    (CCMode.kCCModeCBC = .kCCModeECB ∨ CCMode.kCCModeCBC = .kCCModeCBC) :=
  ⟨(C7_pkcs7_mode_compat Pid .kCCEncrypt .kCCModeCTR .kCCAlgorithmDES
      (some ivW) keyW none 0 0).1 rfl,
    (C7_pkcs7_mode_compat Pid .kCCEncrypt .kCCModeCBC .kCCAlgorithmDES
      (some ivW) keyW none 0 0).2 ceW rfl⟩

theorem final_ok_finalized (c c2 : CCCryptor) (o2 : Bytes)
    (h : CCCryptorFinal c = .ok (c2, o2)) : c2.finalized = true := by
  simp only [CCCryptorFinal] at h
  repeat' split at h
  all_goals
    first
      | exact Except.noConfusion h
      | (simp only [Except.ok.injEq, Prod.mk.injEq] at h
         obtain ⟨h1, h2⟩ := h
         subst h1
         rfl)

/-- C8: after a successful CCCryptorFinal the session is finalized; in
that state every further CCCryptorUpdate or CCCryptorFinal call fails
with kCCParamError until CCCryptorReset, and a successful reset clears
the finalized flag, the pendingBuffer and totalBytesProcessed,
reinitializes the IV/counter/tweak state from the supplied value, and
retains the key schedule (the injected primitives) and the session
parameters. -/
theorem C8_finalized_lifecycle (c c2 : CCCryptor) (o2 : Bytes)
    (h : CCCryptorFinal c = .ok (c2, o2)) :
    c2.finalized = true ∧
    (∀ input, CCCryptorUpdate c2 input = .error kCCParamError) ∧
    CCCryptorFinal c2 = .error kCCParamError ∧
    (∀ iv cr, CCCryptorReset c2 iv = .ok cr →
      cr.finalized = false ∧ cr.pending = [] ∧ cr.total = 0 ∧
      cr.prim = c2.prim ∧ cr.op = c2.op ∧ cr.alg = c2.alg ∧
      cr.mode = c2.mode ∧ cr.padding = c2.padding ∧
      cr.ms = initModeState c2.mode c2.le (iv.getD []) (iv.getD [])) := by
  have hfin := final_ok_finalized c c2 o2 h
  refine ⟨hfin, fun input => by simp [CCCryptorUpdate, hfin],
    by simp [CCCryptorFinal, hfin], ?_⟩
  intro iv cr hr
  simp only [CCCryptorReset] at hr
  split at hr
  all_goals try split_ifs at hr
  all_goals
    first
      | exact Except.noConfusion hr
      | (simp only [Except.ok.injEq] at hr
         subst hr
         refine ⟨rfl, rfl, rfl, rfl, rfl, rfl, rfl, rfl, ?_⟩
         simp_all [initModeState])

/-- Witness for C8: the concrete DES/CBC/PKCS7 session ceW finalizes to
ceWfin emitting one full padding block; ceWfin is finalized, rejects a
further update and final, and a reset with the original IV clears the
finalized flag. -/
theorem C8_finalized_lifecycle_witness :
    ceWfin.finalized = true ∧
    CCCryptorUpdate ceWfin [0] = .error kCCParamError ∧
    CCCryptorFinal ceWfin = .error kCCParamError ∧
    ({ ceWfin with
        ms := ModeState.cbc ivW, pending := ([] : Bytes), total := 0,
        finalized := false } : CCCryptor).finalized = false := by
  have h := C8_finalized_lifecycle ceW ceWfin (List.replicate 8 8) rfl
  exact ⟨h.1, h.2.1 [0], h.2.2.1, (h.2.2.2 (some ivW) _ rfl).1⟩

/-- C9: every legacy incremental digest routine (Init, Update, Final)
returns 1 on every input — there is no error path — and the one-shot
digest functions return NULL without computing anything when given a NULL
output buffer, and otherwise write the digest of the data and return the
buffer. -/
theorem C9_digest_legacy_contract (O : DigestOracle) (alg : CCDigestAlg)
    (c data buf : Bytes) :
    (CC_Digest_Init O alg c).2 = 1 ∧
    (CC_Digest_Update O alg c data).2 = 1 ∧
    (CC_Digest_Final O alg c).2 = 1 ∧
    CC_Digest_OneShot O alg data none = none ∧
    CC_Digest_OneShot O alg data (some buf) = some (O.digest alg data) :=
  ⟨rfl, rfl, rfl, rfl, rfl⟩

/-- C10: CCCryptorCreateWithMode with mode F8 or mode LRW — the two enum
members declared unavailable ("Unimplemented for now") and absent from
the spec's supported set — fails with kCCUnimplemented for every choice
of the remaining arguments, producing no session. -/
theorem C10_f8_lrw_unimplemented (P : Primitives) (op : CCOperation)
    (alg : CCAlgorithm) (padding : CCPadding) (iv : Option Bytes) (key : Bytes)
    (tweak : Option Bytes) (nr opts : Nat) :
    CCCryptorCreateWithMode P op .kCCModeF8 alg padding iv key tweak nr opts =
      .error kCCUnimplemented ∧
    CCCryptorCreateWithMode P op .kCCModeLRW alg padding iv key tweak nr opts =
      .error kCCUnimplemented := by
  constructor <;> simp [CCCryptorCreateWithMode]
